import Mathlib

/-!
Verification of the Letter Crush game engine (`src/main.py`, class `GameBoard`).

The board is a Python dict from `(column, row)` pairs to one-character
strings ("_" for an empty cell); we embed it as a partial map
`ℤ × ℤ → Option Char`, where `none` means the key is absent and a lookup
of an absent key is a `KeyError`.  Every operation of the engine is
translated into the `Except Err` monad: `.error .keyError` models a dict
lookup of a missing key, `.error .assertFail` a failing `assert`, and
`.error .fuelOut` exhaustion of the explicit recursion bound that stands
in for Python's unbounded call stack.  Each loop of the source is embedded
as a structurally recursive function on a step counter together with a
wrapper that supplies the exact number of iterations the loop can make, so
the wrapper computes the loop's result on every input on which the loop
terminates, and all definitions evaluate by kernel reduction.
-/

namespace LetterCrush

/-- A board key, Python's `(x, y)` tuple: `x` is the column, `y` the row
(row 0 is the top of the board). -/
abbrev Cell := ℤ × ℤ

/-- The ways an embedded operation can fail: a dict lookup of an absent key
(Python `KeyError`), a failing `assert` (Python `AssertionError`), and
exhaustion of the explicit recursion bound (no Python counterpart: the
source recurses without a bound). -/
inductive Err where
  | keyError
  | fuelOut
  | assertFail
deriving DecidableEq, Repr

/-- Results of embedded operations can be compared by evaluation. -/
instance {ε α : Type} [DecidableEq ε] [DecidableEq α] : DecidableEq (Except ε α) :=
  fun a b =>
    match a, b with
    | .ok u, .ok v =>
      if h : u = v then .isTrue (by rw [h]) else
        .isFalse (by intro hc; injection hc; contradiction)
    | .error u, .error v =>
      if h : u = v then .isTrue (by rw [h]) else
        .isFalse (by intro hc; injection hc; contradiction)
    | .ok _, .error _ => .isFalse (by intro hc; exact Except.noConfusion hc)
    | .error _, .ok _ => .isFalse (by intro hc; exact Except.noConfusion hc)

/-- The board dict `self.board`, modelled as an association list from
keys (cells) to one-character values; a key occurs at most once, as in a
Python dict. -/
abbrev Board := List (Cell × Char)

/-- Reading a key of the dict: the value at its (first) occurrence, or
`none` when the key is absent. -/
def boardFind : Board → Cell → Option Char
  | [], _ => none
  | (k, w) :: rest, c => if k = c then some w else boardFind rest c

/-- Writing a key of the dict: overwrite the key's occurrence, or append
the key if it is absent (as a Python dict write does). -/
def boardSet : Board → Cell → Char → Board
  | [], c, v => [(c, v)]
  | (k, w) :: rest, c, v =>
    if k = c then (c, v) :: rest else (k, w) :: boardSet rest c v

/-- The mutable state of `GameBoard`: the fields set up by `__init__` that
the game logic reads and writes.  `board` is the dict
`self.board`; `destroyCount` is `self.destroy_count`; the key-press queue,
listener and move table are I/O plumbing outside the engine and are not
modelled. -/
structure GameState where
  width : ℕ
  height : ℕ
  destroyCount : ℤ
  cursor : ℤ
  board : Board
  currentLetter : Char
  turn : ℕ
  score : ℤ
deriving DecidableEq

/-- The raw dict read `self.board[c]`, before the `KeyError` check. -/
def GameState.cell (st : GameState) (c : Cell) : Option Char :=
  boardFind st.board c

/-- Dict lookup `self.board[c]`: a missing key is a `KeyError`. -/
def lookup (st : GameState) (c : Cell) : Except Err Char :=
  match st.cell c with
  | some v => .ok v
  | none => .error .keyError

/-- Dict write `self.board[c] = v` (adds the key if absent, as in Python). -/
def setCell (st : GameState) (c : Cell) (v : Char) : GameState :=
  { st with board := boardSet st.board c v }

/-- The keys `(i, j)` for `i in range(w)`, `j in range(h)`: the key set of
`build_board`. -/
def rectCells (w h : ℕ) : List Cell :=
  (List.range w).flatMap (fun (i : ℕ) => (List.range h).map (fun (j : ℕ) => ((i : ℤ), (j : ℤ))))

/-- The loop `while left >= 0 and self.board[(left, y)] == letter: left -= 1`
of `check_and_destroy_matches`, one constructor of the step counter per
iteration. -/
def scanLeftAux (st : GameState) (y : ℤ) (letter : Char) : ℕ → ℤ → Except Err ℤ
  | 0, _ => .error .fuelOut
  | n + 1, left =>
    if 0 ≤ left then
      match st.cell (left, y) with
      | none => .error .keyError
      | some v => if v = letter then scanLeftAux st y letter n (left - 1) else .ok left
    else .ok left

/-- The left scan of `check_and_destroy_matches` starting at `start`; the
loop variable decreases by one per iteration and stops before reaching
`-2`, so `(start + 1).toNat + 1` steps always suffice. -/
def scanLeft (st : GameState) (y : ℤ) (letter : Char) (start : ℤ) : Except Err ℤ :=
  scanLeftAux st y letter ((start + 1).toNat + 1) start

/-- The loop `while right < self.width and self.board[(right, y)] == letter:
right += 1`. -/
def scanRightAux (st : GameState) (y : ℤ) (letter : Char) : ℕ → ℤ → Except Err ℤ
  | 0, _ => .error .fuelOut
  | n + 1, right =>
    if right < (st.width : ℤ) then
      match st.cell (right, y) with
      | none => .error .keyError
      | some v => if v = letter then scanRightAux st y letter n (right + 1) else .ok right
    else .ok right

/-- The right scan of `check_and_destroy_matches` starting at `start`. -/
def scanRight (st : GameState) (y : ℤ) (letter : Char) (start : ℤ) : Except Err ℤ :=
  scanRightAux st y letter (((st.width : ℤ) - start).toNat + 1) start

/-- The loop `while down < self.height and self.board[(x, down)] == letter:
down += 1`. -/
def scanDownAux (st : GameState) (x : ℤ) (letter : Char) : ℕ → ℤ → Except Err ℤ
  | 0, _ => .error .fuelOut
  | n + 1, down =>
    if down < (st.height : ℤ) then
      match st.cell (x, down) with
      | none => .error .keyError
      | some v => if v = letter then scanDownAux st x letter n (down + 1) else .ok down
    else .ok down

/-- The downward scan of `check_and_destroy_matches` starting at `start`. -/
def scanDown (st : GameState) (x : ℤ) (letter : Char) (start : ℤ) : Except Err ℤ :=
  scanDownAux st x letter (((st.height : ℤ) - start).toNat + 1) start

/-- The cells `(i, y)` for `i in range(left + 1, right)`: the cells added to
`destroyed` when the horizontal window qualifies. -/
def horizCells (left right y : ℤ) : List Cell :=
  (List.range (right - left - 1).toNat).map (fun (k : ℕ) => (left + 1 + (k : ℤ), y))

/-- The cells `(x, j)` for `j in range(y, down)`: the cells added to
`destroyed` when the vertical window qualifies. -/
def vertCells (x y down : ℤ) : List Cell :=
  (List.range (down - y).toNat).map (fun (k : ℕ) => (x, y + (k : ℤ)))

/-- Adding one element to a Python set, modelled as a duplicate-free list
in insertion order. -/
def insertNew (acc : List Cell) (c : Cell) : List Cell :=
  if c ∈ acc then acc else acc ++ [c]

/-- The set `destroyed` built by `check_and_destroy_matches` from the scan
results: the horizontal window's cells when `right - left > destroy_count`,
union the vertical window's cells when `down - y >= destroy_count`.  The
Python set is modelled as a duplicate-free list; its iteration order is not
part of the dict/set contract, and only the row components are ordered
afterwards (`sortByRow`), matching `sorted(destroyed, key=lambda x: x[1])`. -/
def buildDestroyed (dc left right down x y : ℤ) : List Cell :=
  let base := if right - left > dc then horizCells left right y else []
  let verts := if down - y ≥ dc then vertCells x y down else []
  verts.foldl insertNew base

/-- Comparison of cells by their row component, the key
`lambda x: x[1]` of the `sorted` call in `check_and_destroy_matches`. -/
def rowLe (a b : Cell) : Prop := a.2 ≤ b.2

instance : DecidableRel rowLe := fun a b => inferInstanceAs (Decidable (a.2 ≤ b.2))

instance : IsTotal Cell rowLe := ⟨fun a b => le_total a.2 b.2⟩

instance : IsTrans Cell rowLe := ⟨fun _ _ _ h1 h2 => le_trans h1 h2⟩

/-- `sorted(destroyed, key=lambda x: x[1])`. -/
def sortByRow (l : List Cell) : List Cell := List.insertionSort rowLe l

/-- The body of `drop_supported`, one constructor of the step counter per
recursive call (the source recursion moves up one row per call). -/
def dropSupportedAux : ℕ → GameState → Cell → Except Err (GameState × List Cell)
  | 0, _, _ => .error .fuelOut
  | n + 1, st, c =>
    let x := c.1
    let currY := c.2
    let nextY := currY - 1
    if currY = 0 then .ok (setCell st (x, currY) '_', [])
    else
      match st.cell (x, nextY) with
      | none => .error .keyError
      | some v =>
        if v = '_' then .ok (setCell st c '_', [])
        else
          match dropSupportedAux n (setCell st c v) (x, nextY) with
          | .error e => .error e
          | .ok (st2, rest) => .ok (st2, (x, currY) :: rest)

/-- `drop_supported(d_cell)`: the recursion descends from row `c.2` toward
row 0, so `c.2.toNat + 1` steps always suffice (for a cell with a negative
row the first lookup is already a `KeyError` on a well-formed board, as in
the source). -/
def dropSupported (st : GameState) (c : Cell) : Except Err (GameState × List Cell) :=
  dropSupportedAux (c.2.toNat + 1) st c

/-- The loop
`for d_cell in sorted(destroyed, ...): new_candidates.extend(self.drop_supported(d_cell))`
of `check_and_destroy_matches`, threading the board and concatenating the
returned candidate cells in processing order. -/
def collapseDestroyed : GameState → List Cell → Except Err (GameState × List Cell)
  | st, [] => .ok (st, [])
  | st, c :: cs =>
    match dropSupported st c with
    | .error e => .error e
    | .ok (st2, newC) =>
      match collapseDestroyed st2 cs with
      | .error e => .error e
      | .ok (st3, rest) => .ok (st3, newC ++ rest)

/-- The loop `for cell in new_candidates: x, y, letter = *cell,
self.board[cell]; self.check_and_destroy_matches(x, y, letter, depth + 1)`,
with the recursive call abstracted as `rec` (it is instantiated with the
match checker at one less fuel). -/
def childLoop (rec : GameState → ℤ → ℤ → Char → ℕ → Except Err GameState) :
    GameState → List Cell → ℕ → Except Err GameState
  | st, [], _ => .ok st
  | st, c :: cs, d =>
    match lookup st c with
    | .error e => .error e
    | .ok letter =>
      match rec st c.1 c.2 letter d with
      | .error e => .error e
      | .ok st2 => childLoop rec st2 cs d

/-- `self.score += k`. -/
def addScore (st : GameState) (k : ℤ) : GameState :=
  { st with score := st.score + k }

/-- One level of `check_and_destroy_matches(x, y, letter, depth)` with the
recursive cascade call abstracted as `rec`: the guard on `"_"`, the three
scans, the destroyed set, the score update
`self.score += 10 * len(destroyed) * depth`, the collapse loop, and the
recursion over the new candidates at `depth + 1`. -/
def cadmStep (rec : GameState → ℤ → ℤ → Char → ℕ → Except Err GameState)
    (st : GameState) (x y : ℤ) (letter : Char) (depth : ℕ) : Except Err GameState :=
  if letter = '_' then .ok st
  else
    match scanLeft st y letter x with
    | .error e => .error e
    | .ok left =>
      match scanRight st y letter x with
      | .error e => .error e
      | .ok right =>
        match scanDown st x letter y with
        | .error e => .error e
        | .ok down =>
          let destroyed := buildDestroyed st.destroyCount left right down x y
          let st1 := addScore st (10 * (destroyed.length : ℤ) * (depth : ℤ))
          match collapseDestroyed st1 (sortByRow destroyed) with
          | .error e => .error e
          | .ok (st2, cands) => childLoop rec st2 cands (depth + 1)

/-- `check_and_destroy_matches`, with `fuel` bounding the depth of the
cascade recursion (the source recursion is unbounded; termination is the
subject of the fuel-sufficiency theorems below). -/
def cadm : ℕ → GameState → ℤ → ℤ → Char → ℕ → Except Err GameState
  | 0 => fun _ _ _ _ _ => .error .fuelOut
  | fuel + 1 => cadmStep (cadm fuel)

/-- The loop `while y_check >= 0 and self.board[(self.cursor, y_check)] != "_":
y_check -= 1` of `drop_letter`. -/
def findLandingAux (st : GameState) (x : ℤ) : ℕ → ℤ → Except Err ℤ
  | 0, _ => .error .fuelOut
  | n + 1, y =>
    if 0 ≤ y then
      match st.cell (x, y) with
      | none => .error .keyError
      | some v => if v ≠ '_' then findLandingAux st x n (y - 1) else .ok y
    else .ok y

/-- The landing-row scan of `drop_letter` starting at `start` (the source
starts it at `self.height - 1`). -/
def findLanding (st : GameState) (x : ℤ) (start : ℤ) : Except Err ℤ :=
  findLandingAux st x ((start + 1).toNat + 1) start

/-- `drop_letter`: find the landing row; if the column is full
(`y_check == -1`) return with no mutation; otherwise place the current
letter, run `check_and_destroy_matches` on the placed cell, draw the next
letter and advance the turn.  `newLetter` stands for the random draw
`self.get_letter()`, an opaque external letter source. -/
def dropLetter (fuel : ℕ) (newLetter : Char) (st : GameState) : Except Err GameState :=
  match findLanding st st.cursor ((st.height : ℤ) - 1) with
  | .error e => .error e
  | .ok y =>
    if y = -1 then .ok st
    else
      let st1 := setCell st (st.cursor, y) st.currentLetter
      match lookup st1 (st.cursor, y) with
      | .error e => .error e
      | .ok letter =>
        match cadm fuel st1 st.cursor y letter 1 with
        | .error e => .error e
        | .ok st2 => .ok { st2 with currentLetter := newLetter, turn := st2.turn + 1 }

/-- `cursor_left`: the `assert 0 <= self.cursor <= self.width - 1`, then a
no-op at column 0, else a decrement. -/
def cursorLeft (st : GameState) : Except Err GameState :=
  if 0 ≤ st.cursor ∧ st.cursor ≤ (st.width : ℤ) - 1 then
    if st.cursor = 0 then .ok st else .ok { st with cursor := st.cursor - 1 }
  else .error .assertFail

/-- `cursor_right`: the `assert`, then a no-op at column `width - 1`, else
an increment. -/
def cursorRight (st : GameState) : Except Err GameState :=
  if 0 ≤ st.cursor ∧ st.cursor ≤ (st.width : ℤ) - 1 then
    if st.cursor = (st.width : ℤ) - 1 then .ok st else .ok { st with cursor := st.cursor + 1 }
  else .error .assertFail

/-- A board whose key set is exactly `[0, w) × [0, h)`, holding `f c` at
each key `c` (used to build concrete boards for the tests below). -/
def mkBoard (w h : ℕ) (f : Cell → Char) : Board :=
  (rectCells w h).map (fun c => (c, f c))

/-- `build_board(None)`: every key of the rectangle maps to `"_"`. -/
def initBoard (w h : ℕ) : Board := mkBoard w h (fun _ => '_')

/-- The state `__init__` sets up (with the random initial letter passed in
as `letter`): cursor at `width // 2`, all cells empty, turn and score 0. -/
def initState (w h : ℕ) (dc : ℤ) (letter : Char) : GameState :=
  { width := w, height := h, destroyCount := dc, cursor := (w : ℤ) / 2,
    board := initBoard w h, currentLetter := letter, turn := 0, score := 0 }

/-- Coordinates inside the board rectangle `[0, width) × [0, height)`. -/
def inRect (w h : ℕ) (c : Cell) : Prop :=
  0 ≤ c.1 ∧ c.1 < (w : ℤ) ∧ 0 ≤ c.2 ∧ c.2 < (h : ℤ)

instance (w h : ℕ) (c : Cell) : Decidable (inRect w h c) :=
  inferInstanceAs (Decidable (_ ∧ _ ∧ _ ∧ _))

/-- Well-formedness of a state: the board dict has a key at exactly the
coordinates of the rectangle (the invariant `build_board` establishes). -/
def WF (st : GameState) : Prop :=
  ∀ c : Cell, (st.cell c).isSome ↔ inRect st.width st.height c

/-- Equality of all session fields except the board and the score: what the
match-and-gravity engine never touches. -/
def frameEq (st st2 : GameState) : Prop :=
  st2.width = st.width ∧ st2.height = st.height ∧ st2.destroyCount = st.destroyCount ∧
    st2.cursor = st.cursor ∧ st2.currentLetter = st.currentLetter ∧ st2.turn = st.turn

/-- Full compaction of column `x`: no empty cell of the column has a
non-empty cell anywhere above it (row 0 is the top). -/
def colCompact (st : GameState) (x : ℤ) : Prop :=
  ∀ j j2 : ℤ, 0 ≤ j2 → j2 ≤ j → j < (st.height : ℤ) →
    st.cell (x, j) = some '_' → st.cell (x, j2) = some '_'

/-- The number of non-empty cells of the board rectangle. -/
def nonEmptyCount (st : GameState) : ℕ :=
  ((Finset.Icc (0 : ℤ) ((st.width : ℤ) - 1) ×ˢ Finset.Icc (0 : ℤ) ((st.height : ℤ) - 1)).filter
    (fun c => st.cell c ≠ some '_')).card

/-- The cells `(x, y), (x, y - 1), …, (x, t + 1)`: the candidate list
`drop_supported` returns when its recursion stops at row `t`. -/
def descCells (x y t : ℤ) : List Cell :=
  (List.range (y - t).toNat).map (fun (k : ℕ) => (x, y - (k : ℤ)))

/-- Test state: a single row `A A A` on a width-3 board with the default
threshold `destroy_count = 3` (a horizontal run of length exactly 3). -/
def rowA3 : GameState :=
  { width := 3, height := 1, destroyCount := 3, cursor := 0,
    board := mkBoard 3 1 (fun _ => 'A'), currentLetter := 'A', turn := 0, score := 0 }

/-- Test state: one column of height 4 holding `_ A A A` from top to
bottom (a vertical run of length 3 whose middle cell has a same-letter
cell directly above it). -/
def colA3 : GameState :=
  { width := 1, height := 4, destroyCount := 3, cursor := 0,
    board := mkBoard 1 4 (fun c => if 1 ≤ c.2 then 'A' else '_'),
    currentLetter := 'A', turn := 0, score := 0 }

/-- Test state: one column of height 4 holding `A _ B C` from top to
bottom (a floating gap below the `A`). -/
def colGap : GameState :=
  { width := 1, height := 4, destroyCount := 3, cursor := 0,
    board := mkBoard 1 4 (fun c =>
      if c.2 = 0 then 'A' else if c.2 = 2 then 'B' else if c.2 = 3 then 'C' else '_'),
    currentLetter := 'A', turn := 0, score := 0 }

/-- Test state: one column of height 2 holding `A A`. -/
def colAA : GameState :=
  { width := 1, height := 2, destroyCount := 3, cursor := 0,
    board := mkBoard 1 2 (fun _ => 'A'), currentLetter := 'A', turn := 0, score := 0 }

/-- Test state: one full column of height 2 holding `B B`, with a nonzero
turn counter and score. -/
def colBB : GameState :=
  { width := 1, height := 2, destroyCount := 3, cursor := 0,
    board := mkBoard 1 2 (fun _ => 'B'), currentLetter := 'A', turn := 5, score := 7 }

/-- The state and candidate list `drop_supported` computes on `colGap`
destroying the bottom cell `(0, 3)` (total function used to name the
computed result in concrete statements). -/
def colGapRes : GameState × List Cell :=
  match collapseDestroyed colGap [(0, 3)] with
  | .ok p => p
  | .error _ => (colGap, [])

/-- The state and candidate list `drop_supported` computes on `colAA` at
the bottom cell `(0, 1)`. -/
def colAARes : GameState × List Cell :=
  match dropSupported colAA (0, 1) with
  | .ok p => p
  | .error _ => (colAA, [])

/-- The state a drop on the empty 1-by-1 board produces. -/
def dropRes1 : GameState :=
  match dropLetter 2 'B' (initState 1 1 3 'A') with
  | .ok s => s
  | .error _ => initState 1 1 3 'A'

/-- Scenario A, intermediate state: after one `cursor_left` from the
initial state (cursor `5 // 2 = 2` moves to 1). -/
def scenA1 : GameState :=
  { width := 5, height := 1, destroyCount := 3, cursor := 1,
    board := [((0, 0), '_'), ((1, 0), '_'), ((2, 0), '_'), ((3, 0), '_'), ((4, 0), '_')],
    currentLetter := 'A', turn := 0, score := 0 }

/-- Scenario A, intermediate state: cursor at column 0. -/
def scenA2 : GameState := { scenA1 with cursor := 0 }

/-- Scenario A, intermediate state: after the first drop (`A` at column 0). -/
def scenA3 : GameState :=
  { width := 5, height := 1, destroyCount := 3, cursor := 0,
    board := [((0, 0), 'A'), ((1, 0), '_'), ((2, 0), '_'), ((3, 0), '_'), ((4, 0), '_')],
    currentLetter := 'A', turn := 1, score := 0 }

/-- Scenario A, intermediate state: cursor moved right to column 1. -/
def scenA4 : GameState := { scenA3 with cursor := 1 }

/-- Scenario A, intermediate state: after the second drop (`A` at column 1). -/
def scenA5 : GameState :=
  { width := 5, height := 1, destroyCount := 3, cursor := 1,
    board := [((0, 0), 'A'), ((1, 0), 'A'), ((2, 0), '_'), ((3, 0), '_'), ((4, 0), '_')],
    currentLetter := 'A', turn := 2, score := 0 }

/-- Scenario A, intermediate state: cursor moved right to column 2. -/
def scenA6 : GameState := { scenA5 with cursor := 2 }

/-- Scenario A, final state: the third drop completes a horizontal run of
length 3, which is destroyed for 10 * 3 * 1 = 30 points. -/
def scenA7 : GameState :=
  { width := 5, height := 1, destroyCount := 3, cursor := 2,
    board := [((0, 0), '_'), ((1, 0), '_'), ((2, 0), '_'), ((3, 0), '_'), ((4, 0), '_')],
    currentLetter := 'A', turn := 3, score := 30 }

/-- Scenario A of the specification: width 5, height 1, threshold 3,
starting from the empty board; drop `A` at columns 0, 1 and 2 (the cursor
starts at `5 // 2 = 2`, so move left twice, then drop / right / drop /
right / drop).  Every drop passes the cell-count fuel bound
`5 * 1 + 1 = 6`. -/
def scenarioA : Except Err GameState := do
  let s1 ← cursorLeft (initState 5 1 3 'A')
  let s2 ← cursorLeft s1
  let s3 ← dropLetter 6 'A' s2
  let s4 ← cursorRight s3
  let s5 ← dropLetter 6 'A' s4
  let s6 ← cursorRight s5
  dropLetter 6 'A' s6

end LetterCrush

namespace LetterCrush

/-! ### Basic facts about lookups, writes and well-formedness -/

theorem boardFind_boardSet (b : Board) (c : Cell) (v : Char) :
    ∀ c2, boardFind (boardSet b c v) c2 = if c2 = c then some v else boardFind b c2 := by
  induction b with
  | nil =>
    intro c2
    by_cases hc : c2 = c
    · subst hc
      simp [boardSet, boardFind]
    · simp [boardSet, boardFind, hc, Ne.symm hc]
  | cons p rest ih =>
    intro c2
    obtain ⟨k, w⟩ := p
    by_cases hk : k = c
    · subst hk
      by_cases hc : c2 = k
      · subst hc
        simp [boardSet, boardFind]
      · simp [boardSet, boardFind, hc, Ne.symm hc]
    · by_cases hkc2 : k = c2
      · subst hkc2
        simp [boardSet, boardFind, hk]
      · simp [boardSet, boardFind, hk, hkc2, ih]

theorem boardFind_mapSelf (f : Cell → Char) :
    ∀ (cells : List Cell) (c0 : Cell),
      boardFind (cells.map (fun c => (c, f c))) c0 =
        if c0 ∈ cells then some (f c0) else none := by
  intro cells
  induction cells with
  | nil => intro c0; simp [boardFind]
  | cons c rest ih =>
    intro c0
    by_cases hc : c = c0
    · subst hc
      simp [boardFind]
    · simp [boardFind, hc, ih, List.mem_cons, Ne.symm hc]

theorem mem_rectCells {w h : ℕ} {c : Cell} : c ∈ rectCells w h ↔ inRect w h c := by
  obtain ⟨c1, c2⟩ := c
  unfold rectCells inRect
  rw [List.mem_flatMap]
  constructor
  · rintro ⟨i, hi, hmem⟩
    rw [List.mem_range] at hi
    rw [List.mem_map] at hmem
    obtain ⟨j, hj, hje⟩ := hmem
    rw [List.mem_range] at hj
    injection hje with h1 h2
    dsimp only
    omega
  · rintro ⟨h1, h2, h3, h4⟩
    dsimp only at h1 h2 h3 h4
    refine ⟨c1.toNat, by rw [List.mem_range]; omega, ?_⟩
    rw [List.mem_map]
    refine ⟨c2.toNat, by rw [List.mem_range]; omega, ?_⟩
    simp only [Prod.mk.injEq]
    omega

theorem lookup_of_some {st : GameState} {c : Cell} {v : Char}
    (h : st.cell c = some v) : lookup st c = .ok v := by
  simp [lookup, h]

theorem wf_some {st : GameState} {c : Cell} (hwf : WF st)
    (h : inRect st.width st.height c) : ∃ v, st.cell c = some v := by
  have := (hwf c).mpr h
  exact Option.isSome_iff_exists.mp this

theorem wf_inRect_of_some {st : GameState} {c : Cell} {v : Char} (hwf : WF st)
    (h : st.cell c = some v) : inRect st.width st.height c := by
  have : (st.cell c).isSome := by simp [h]
  exact (hwf c).mp this

theorem setCell_board (st : GameState) (c : Cell) (v : Char) (c2 : Cell) :
    (setCell st c v).cell c2 = if c2 = c then some v else st.cell c2 :=
  boardFind_boardSet st.board c v c2

theorem wf_setCell {st : GameState} {c : Cell} (hwf : WF st)
    (h : inRect st.width st.height c) (v : Char) : WF (setCell st c v) := by
  intro c2
  rw [setCell_board]
  by_cases hc : c2 = c
  · subst hc
    simpa [setCell] using h
  · simpa [setCell, hc] using hwf c2

theorem mkBoard_isSome (w h : ℕ) (f : Cell → Char) (c : Cell) :
    (boardFind (mkBoard w h f) c).isSome ↔ inRect w h c := by
  unfold mkBoard
  rw [boardFind_mapSelf]
  by_cases hc : c ∈ rectCells w h
  · simp only [if_pos hc]
    simpa using mem_rectCells.mp hc
  · simp only [if_neg hc]
    simp only [Option.isSome_none, Bool.false_eq_true, false_iff]
    exact fun hcon => hc (mem_rectCells.mpr hcon)

theorem wf_mk (st : GameState) (f : Cell → Char)
    (hb : st.board = mkBoard st.width st.height f) : WF st := by
  intro c
  show (boardFind st.board c).isSome ↔ inRect st.width st.height c
  rw [hb]
  exact mkBoard_isSome _ _ _ _

/-! ### Specifications of the scan loops -/

theorem scanLeftAux_spec {st : GameState} {y : ℤ} {letter : Char} (hwf : WF st)
    (hy0 : 0 ≤ y) (hyh : y < (st.height : ℤ)) :
    ∀ (n : ℕ) (left : ℤ), -1 ≤ left → left < (st.width : ℤ) → (left + 1).toNat + 1 ≤ n →
    ∃ l, scanLeftAux st y letter n left = .ok l ∧ -1 ≤ l ∧ l ≤ left ∧
      (∀ i, l < i → i ≤ left → st.cell (i, y) = some letter) ∧
      (0 ≤ l → st.cell (l, y) ≠ some letter) := by
  intro n
  induction n with
  | zero => intro left _ _ hn; omega
  | succ n ih =>
    intro left hl1 hlw hn
    by_cases hl0 : 0 ≤ left
    · obtain ⟨v, hv⟩ := wf_some hwf (c := (left, y)) ⟨hl0, hlw, hy0, hyh⟩
      by_cases hveq : v = letter
      · subst hveq
        obtain ⟨l, heq, h1, h2, h3, h4⟩ := ih (left - 1) (by omega) (by omega) (by omega)
        refine ⟨l, ?_, h1, by omega, ?_, h4⟩
        · simp only [scanLeftAux, hl0, if_pos, hv]
          simp [heq]
        · intro i hi1 hi2
          by_cases hi : i ≤ left - 1
          · exact h3 i hi1 hi
          · have : i = left := by omega
            subst this
            exact hv
      · refine ⟨left, ?_, by omega, le_refl _, by intro i h1 h2; omega, ?_⟩
        · simp only [scanLeftAux, hl0, if_pos, hv]
          simp [hveq]
        · intro _
          rw [hv]
          simp [hveq]
    · refine ⟨left, ?_, by omega, le_refl _, by intro i h1 h2; omega, by intro h; omega⟩
      simp [scanLeftAux, hl0]

theorem scanLeft_spec {st : GameState} {y : ℤ} {letter : Char} {start : ℤ} (hwf : WF st)
    (hy0 : 0 ≤ y) (hyh : y < (st.height : ℤ)) (hs1 : -1 ≤ start) (hsw : start < (st.width : ℤ)) :
    ∃ l, scanLeft st y letter start = .ok l ∧ -1 ≤ l ∧ l ≤ start ∧
      (∀ i, l < i → i ≤ start → st.cell (i, y) = some letter) ∧
      (0 ≤ l → st.cell (l, y) ≠ some letter) :=
  scanLeftAux_spec hwf hy0 hyh _ start hs1 hsw (by omega)

theorem scanRightAux_spec {st : GameState} {y : ℤ} {letter : Char} (hwf : WF st)
    (hy0 : 0 ≤ y) (hyh : y < (st.height : ℤ)) :
    ∀ (n : ℕ) (right : ℤ), 0 ≤ right → right ≤ (st.width : ℤ) →
      ((st.width : ℤ) - right).toNat + 1 ≤ n →
    ∃ r, scanRightAux st y letter n right = .ok r ∧ right ≤ r ∧ r ≤ (st.width : ℤ) ∧
      (∀ i, right ≤ i → i < r → st.cell (i, y) = some letter) ∧
      (r < (st.width : ℤ) → st.cell (r, y) ≠ some letter) := by
  intro n
  induction n with
  | zero => intro right _ _ hn; omega
  | succ n ih =>
    intro right hr0 hrw hn
    by_cases hlt : right < (st.width : ℤ)
    · obtain ⟨v, hv⟩ := wf_some hwf (c := (right, y)) ⟨hr0, hlt, hy0, hyh⟩
      by_cases hveq : v = letter
      · subst hveq
        obtain ⟨r, heq, h1, h2, h3, h4⟩ := ih (right + 1) (by omega) (by omega) (by omega)
        refine ⟨r, ?_, by omega, h2, ?_, h4⟩
        · simp only [scanRightAux, hlt, if_pos, hv]
          simp [heq]
        · intro i hi1 hi2
          by_cases hi : right + 1 ≤ i
          · exact h3 i hi hi2
          · have : i = right := by omega
            subst this
            exact hv
      · refine ⟨right, ?_, le_refl _, by omega, by intro i h1 h2; omega, ?_⟩
        · simp only [scanRightAux, hlt, if_pos, hv]
          simp [hveq]
        · intro _
          rw [hv]
          simp [hveq]
    · refine ⟨right, ?_, le_refl _, by omega, by intro i h1 h2; omega, by intro h; omega⟩
      simp [scanRightAux, hlt]

theorem scanRight_spec {st : GameState} {y : ℤ} {letter : Char} {start : ℤ} (hwf : WF st)
    (hy0 : 0 ≤ y) (hyh : y < (st.height : ℤ)) (hs0 : 0 ≤ start) (hsw : start ≤ (st.width : ℤ)) :
    ∃ r, scanRight st y letter start = .ok r ∧ start ≤ r ∧ r ≤ (st.width : ℤ) ∧
      (∀ i, start ≤ i → i < r → st.cell (i, y) = some letter) ∧
      (r < (st.width : ℤ) → st.cell (r, y) ≠ some letter) :=
  scanRightAux_spec hwf hy0 hyh _ start hs0 hsw (by omega)

theorem scanDownAux_spec {st : GameState} {x : ℤ} {letter : Char} (hwf : WF st)
    (hx0 : 0 ≤ x) (hxw : x < (st.width : ℤ)) :
    ∀ (n : ℕ) (down : ℤ), 0 ≤ down → down ≤ (st.height : ℤ) →
      ((st.height : ℤ) - down).toNat + 1 ≤ n →
    ∃ d, scanDownAux st x letter n down = .ok d ∧ down ≤ d ∧ d ≤ (st.height : ℤ) ∧
      (∀ j, down ≤ j → j < d → st.cell (x, j) = some letter) ∧
      (d < (st.height : ℤ) → st.cell (x, d) ≠ some letter) := by
  intro n
  induction n with
  | zero => intro down _ _ hn; omega
  | succ n ih =>
    intro down hd0 hdh hn
    by_cases hlt : down < (st.height : ℤ)
    · obtain ⟨v, hv⟩ := wf_some hwf (c := (x, down)) ⟨hx0, hxw, hd0, hlt⟩
      by_cases hveq : v = letter
      · subst hveq
        obtain ⟨d, heq, h1, h2, h3, h4⟩ := ih (down + 1) (by omega) (by omega) (by omega)
        refine ⟨d, ?_, by omega, h2, ?_, h4⟩
        · simp only [scanDownAux, hlt, if_pos, hv]
          simp [heq]
        · intro j hj1 hj2
          by_cases hj : down + 1 ≤ j
          · exact h3 j hj hj2
          · have : j = down := by omega
            subst this
            exact hv
      · refine ⟨down, ?_, le_refl _, by omega, by intro j h1 h2; omega, ?_⟩
        · simp only [scanDownAux, hlt, if_pos, hv]
          simp [hveq]
        · intro _
          rw [hv]
          simp [hveq]
    · refine ⟨down, ?_, le_refl _, by omega, by intro j h1 h2; omega, by intro h; omega⟩
      simp [scanDownAux, hlt]

theorem scanDown_spec {st : GameState} {x : ℤ} {letter : Char} {start : ℤ} (hwf : WF st)
    (hx0 : 0 ≤ x) (hxw : x < (st.width : ℤ)) (hs0 : 0 ≤ start) (hsh : start ≤ (st.height : ℤ)) :
    ∃ d, scanDown st x letter start = .ok d ∧ start ≤ d ∧ d ≤ (st.height : ℤ) ∧
      (∀ j, start ≤ j → j < d → st.cell (x, j) = some letter) ∧
      (d < (st.height : ℤ) → st.cell (x, d) ≠ some letter) :=
  scanDownAux_spec hwf hx0 hxw _ start hs0 hsh (by omega)

theorem findLandingAux_spec {st : GameState} {x : ℤ} (hwf : WF st)
    (hx0 : 0 ≤ x) (hxw : x < (st.width : ℤ)) :
    ∀ (n : ℕ) (y : ℤ), -1 ≤ y → y < (st.height : ℤ) → (y + 1).toNat + 1 ≤ n →
    ∃ res, findLandingAux st x n y = .ok res ∧ -1 ≤ res ∧ res ≤ y ∧
      (∀ j, res < j → j ≤ y → st.cell (x, j) ≠ some '_') ∧
      (0 ≤ res → st.cell (x, res) = some '_') := by
  intro n
  induction n with
  | zero => intro y _ _ hn; omega
  | succ n ih =>
    intro y hy1 hyh hn
    by_cases hy0 : 0 ≤ y
    · obtain ⟨v, hv⟩ := wf_some hwf (c := (x, y)) ⟨hx0, hxw, hy0, hyh⟩
      by_cases hveq : v = '_'
      · subst hveq
        refine ⟨y, ?_, by omega, le_refl _, by intro j h1 h2; omega, fun _ => hv⟩
        simp [findLandingAux, hy0, hv]
      · obtain ⟨res, heq, h1, h2, h3, h4⟩ := ih (y - 1) (by omega) (by omega) (by omega)
        refine ⟨res, ?_, h1, by omega, ?_, h4⟩
        · simp only [findLandingAux, hy0, if_pos, hv]
          simp [hveq, heq]
        · intro j hj1 hj2
          by_cases hj : j ≤ y - 1
          · exact h3 j hj1 hj
          · have : j = y := by omega
            subst this
            rw [hv]
            simp [hveq]
    · refine ⟨y, ?_, by omega, le_refl _, by intro j h1 h2; omega, by intro h; omega⟩
      simp [findLandingAux, hy0]

theorem findLanding_spec {st : GameState} {x : ℤ} {start : ℤ} (hwf : WF st)
    (hx0 : 0 ≤ x) (hxw : x < (st.width : ℤ)) (hs1 : -1 ≤ start) (hsh : start < (st.height : ℤ)) :
    ∃ res, findLanding st x start = .ok res ∧ -1 ≤ res ∧ res ≤ start ∧
      (∀ j, res < j → j ≤ start → st.cell (x, j) ≠ some '_') ∧
      (0 ≤ res → st.cell (x, res) = some '_') :=
  findLandingAux_spec hwf hx0 hxw _ start hs1 hsh (by omega)

end LetterCrush

namespace LetterCrush

/-! ### The candidate lists returned by the gravity recursion -/

theorem descCells_nil (x y : ℤ) : descCells x y y = [] := by
  simp [descCells]

theorem descCells_cons (x y t : ℤ) (h : t ≤ y - 1) :
    descCells x y t = (x, y) :: descCells x (y - 1) t := by
  unfold descCells
  have hn : (y - t).toNat = (y - 1 - t).toNat + 1 := by omega
  rw [hn]
  apply List.ext_getElem
  · simp
  · intro i h1 h2
    cases i with
    | zero => simp
    | succ i =>
      simp only [List.getElem_map, List.getElem_range, List.getElem_cons_succ,
        Prod.mk.injEq, true_and]
      push_cast
      ring

theorem mem_descCells {c : Cell} (x y t : ℤ) :
    c ∈ descCells x y t ↔ c.1 = x ∧ t < c.2 ∧ c.2 ≤ y := by
  unfold descCells
  rw [List.mem_map]
  constructor
  · rintro ⟨k, hk, hke⟩
    rw [List.mem_range] at hk
    subst hke
    dsimp only
    exact ⟨rfl, by omega, by omega⟩
  · rintro ⟨h1, h2, h3⟩
    refine ⟨(y - c.2).toNat, by rw [List.mem_range]; omega, ?_⟩
    obtain ⟨c1, c2⟩ := c
    dsimp only at h1 h2 h3
    subst h1
    have hcast : (((y - c2).toNat : ℤ)) = y - c2 := by omega
    rw [hcast]
    simp only [Prod.mk.injEq, true_and]
    omega

/-! ### Frame equalities -/

theorem frameEq_refl (st : GameState) : frameEq st st :=
  ⟨rfl, rfl, rfl, rfl, rfl, rfl⟩

theorem frameEq_trans {s1 s2 s3 : GameState} (h1 : frameEq s1 s2) (h2 : frameEq s2 s3) :
    frameEq s1 s3 :=
  ⟨h2.1.trans h1.1, h2.2.1.trans h1.2.1, h2.2.2.1.trans h1.2.2.1,
    h2.2.2.2.1.trans h1.2.2.2.1, h2.2.2.2.2.1.trans h1.2.2.2.2.1,
    h2.2.2.2.2.2.trans h1.2.2.2.2.2⟩

theorem frameEq_setCell (st : GameState) (c : Cell) (v : Char) : frameEq st (setCell st c v) :=
  ⟨rfl, rfl, rfl, rfl, rfl, rfl⟩

/-! ### The shape of `drop_supported`: it shifts one column segment down by
one cell, empties the segment's top cell, and returns the shifted-into cells
from the origin upward. -/

theorem dropSupportedAux_spec :
    ∀ (n : ℕ) (st : GameState) (x y : ℤ), WF st → inRect st.width st.height (x, y) →
      y.toNat + 1 ≤ n →
    ∃ t st2 cands, dropSupportedAux n st (x, y) = .ok (st2, cands) ∧
      0 ≤ t ∧ t ≤ y ∧ cands = descCells x y t ∧
      (t = 0 ∨ st.cell (x, t - 1) = some '_') ∧
      (∀ j, t < j → j ≤ y → st.cell (x, j - 1) ≠ some '_') ∧
      st2.cell (x, t) = some '_' ∧
      (∀ j, t < j → j ≤ y → st2.cell (x, j) = st.cell (x, j - 1)) ∧
      (∀ c : Cell, c.1 ≠ x ∨ c.2 < t ∨ y < c.2 → st2.cell c = st.cell c) ∧
      WF st2 ∧ frameEq st st2 ∧ st2.score = st.score := by
  intro n
  induction n with
  | zero => intro st x y _ _ hn; omega
  | succ n ih =>
    intro st x y hwf hin hn
    have hx0 : 0 ≤ x := hin.1
    have hxw : x < (st.width : ℤ) := hin.2.1
    have hy0 : 0 ≤ y := hin.2.2.1
    have hyh : y < (st.height : ℤ) := hin.2.2.2
    by_cases hy : y = 0
    · subst hy
      refine ⟨0, setCell st (x, 0) '_', [], ?_, le_refl _, le_refl _, (descCells_nil x 0).symm,
        Or.inl rfl, by intro j h1 h2; omega, by simp [setCell_board], by intro j h1 h2; omega,
        ?_, wf_setCell hwf hin _, frameEq_setCell st _ _, rfl⟩
      · simp [dropSupportedAux]
      · intro c hc
        rw [setCell_board, if_neg]
        rintro rfl
        simp at hc
    · obtain ⟨v, hv⟩ := wf_some hwf (c := (x, y - 1)) ⟨hx0, hxw, by omega, by omega⟩
      by_cases hve : v = '_'
      · subst hve
        refine ⟨y, setCell st (x, y) '_', [], ?_, by omega, le_refl _, (descCells_nil x y).symm,
          Or.inr hv, by intro j h1 h2; omega, by simp [setCell_board], by intro j h1 h2; omega,
          ?_, wf_setCell hwf hin _, frameEq_setCell st _ _, rfl⟩
        · simp [dropSupportedAux, hy, hv]
        · intro c hc
          rw [setCell_board, if_neg]
          rintro rfl
          simp at hc
      · have hwf1 : WF (setCell st (x, y) v) := wf_setCell hwf hin _
        have hin1 : inRect (setCell st (x, y) v).width (setCell st (x, y) v).height (x, y - 1) :=
          ⟨hx0, hxw, by show (0 : ℤ) ≤ y - 1; omega, by show y - 1 < (st.height : ℤ); omega⟩
        obtain ⟨t, st2, rest, heq, ht0, hty, hcands, hstop, hintv, hempty, hnew, hunt, hwf2,
          hframe2, hscore2⟩ := ih (setCell st (x, y) v) x (y - 1) hwf1 hin1 (by omega)
        have hne_pair : ∀ j : ℤ, j ≠ y → (setCell st (x, y) v).cell (x, j) = st.cell (x, j) := by
          intro j hj
          rw [setCell_board, if_neg]
          simp [hj]
        refine ⟨t, st2, (x, y) :: rest, ?_, ht0, by omega, ?_, ?_, ?_, hempty, ?_, ?_, hwf2,
          frameEq_trans (frameEq_setCell st _ _) hframe2, by rw [hscore2]; rfl⟩
        · simp only [dropSupportedAux, hy, if_neg, hv]
          simp [hve, heq]
        · rw [hcands, descCells_cons x y t (by omega)]
        · rcases hstop with h | h
          · exact Or.inl h
          · exact Or.inr (by rw [← hne_pair (t - 1) (by omega)]; exact h)
        · intro j h1 h2
          by_cases hj : j ≤ y - 1
          · have hx := hintv j h1 hj
            rw [hne_pair (j - 1) (by omega)] at hx
            exact hx
          · have hjy : j = y := by omega
            rw [hjy, hv]
            simp [hve]
        · intro j h1 h2
          by_cases hj : j ≤ y - 1
          · have hx := hnew j h1 hj
            rw [hne_pair (j - 1) (by omega)] at hx
            exact hx
          · have hjy : j = y := by omega
            have hu := hunt (x, y) (by right; right; dsimp only; omega)
            rw [hjy, hu, setCell_board, if_pos rfl, hv]
        · intro c hc
          have hc1 : c.1 ≠ x ∨ c.2 < t ∨ y - 1 < c.2 := by
            rcases hc with h | h | h
            · exact Or.inl h
            · exact Or.inr (Or.inl h)
            · exact Or.inr (Or.inr (by omega))
          rw [hunt c hc1, setCell_board, if_neg]
          rintro rfl
          rcases hc with h | h | h
          · exact h rfl
          · dsimp only at h
            omega
          · dsimp only at h
            omega

theorem dropSupported_spec {st : GameState} {x y : ℤ} (hwf : WF st)
    (hin : inRect st.width st.height (x, y)) :
    ∃ t st2 cands, dropSupported st (x, y) = .ok (st2, cands) ∧
      0 ≤ t ∧ t ≤ y ∧ cands = descCells x y t ∧
      (t = 0 ∨ st.cell (x, t - 1) = some '_') ∧
      (∀ j, t < j → j ≤ y → st.cell (x, j - 1) ≠ some '_') ∧
      st2.cell (x, t) = some '_' ∧
      (∀ j, t < j → j ≤ y → st2.cell (x, j) = st.cell (x, j - 1)) ∧
      (∀ c : Cell, c.1 ≠ x ∨ c.2 < t ∨ y < c.2 → st2.cell c = st.cell c) ∧
      WF st2 ∧ frameEq st st2 ∧ st2.score = st.score :=
  dropSupportedAux_spec (y.toNat + 1) st x y hwf hin (le_refl _)

end LetterCrush

namespace LetterCrush

/-! ### Counting non-empty cells -/

theorem mem_rectFinset {w h : ℕ} {c : Cell} :
    c ∈ (Finset.Icc (0 : ℤ) ((w : ℤ) - 1) ×ˢ Finset.Icc (0 : ℤ) ((h : ℤ) - 1)) ↔
      inRect w h c := by
  rw [Finset.mem_product, Finset.mem_Icc, Finset.mem_Icc]
  unfold inRect
  omega

theorem count_setCell_toEmpty {st : GameState} {c : Cell}
    (hin : inRect st.width st.height c) (hne : st.cell c ≠ some '_') :
    nonEmptyCount (setCell st c '_') + 1 = nonEmptyCount st := by
  unfold nonEmptyCount
  have hw : (setCell st c '_').width = st.width := rfl
  have hh : (setCell st c '_').height = st.height := rfl
  rw [hw, hh]
  have hmem : c ∈ (Finset.Icc (0 : ℤ) ((st.width : ℤ) - 1) ×ˢ
      Finset.Icc (0 : ℤ) ((st.height : ℤ) - 1)).filter (fun c2 => st.cell c2 ≠ some '_') := by
    rw [Finset.mem_filter]
    exact ⟨mem_rectFinset.mpr hin, hne⟩
  have hfe : (Finset.Icc (0 : ℤ) ((st.width : ℤ) - 1) ×ˢ
        Finset.Icc (0 : ℤ) ((st.height : ℤ) - 1)).filter
        (fun c2 => (setCell st c '_').cell c2 ≠ some '_') =
      ((Finset.Icc (0 : ℤ) ((st.width : ℤ) - 1) ×ˢ
        Finset.Icc (0 : ℤ) ((st.height : ℤ) - 1)).filter
        (fun c2 => st.cell c2 ≠ some '_')).erase c := by
    ext c2
    rw [Finset.mem_erase, Finset.mem_filter, Finset.mem_filter]
    by_cases hc : c2 = c
    · subst hc
      simp [setCell_board]
    · simp only [setCell_board, if_neg hc, hc]
      tauto
  rw [hfe, Finset.card_erase_of_mem hmem]
  have : 0 < ((Finset.Icc (0 : ℤ) ((st.width : ℤ) - 1) ×ˢ
      Finset.Icc (0 : ℤ) ((st.height : ℤ) - 1)).filter (fun c2 => st.cell c2 ≠ some '_')).card :=
    Finset.card_pos.mpr ⟨c, hmem⟩
  omega

theorem count_setCell_keep {st : GameState} {c : Cell} {v : Char}
    (hne : st.cell c ≠ some '_') (hv : v ≠ '_') :
    nonEmptyCount (setCell st c v) = nonEmptyCount st := by
  unfold nonEmptyCount
  have hw : (setCell st c v).width = st.width := rfl
  have hh : (setCell st c v).height = st.height := rfl
  rw [hw, hh]
  apply congrArg
  apply Finset.filter_congr
  intro c2 _
  by_cases hc : c2 = c
  · subst hc
    simp [setCell_board, hne, hv]
  · simp [setCell_board, hc]

theorem nonEmptyCount_le (st : GameState) : nonEmptyCount st ≤ st.width * st.height := by
  unfold nonEmptyCount
  calc ((Finset.Icc (0 : ℤ) ((st.width : ℤ) - 1) ×ˢ Finset.Icc (0 : ℤ)
          ((st.height : ℤ) - 1)).filter (fun c => st.cell c ≠ some '_')).card
      ≤ (Finset.Icc (0 : ℤ) ((st.width : ℤ) - 1) ×ˢ
          Finset.Icc (0 : ℤ) ((st.height : ℤ) - 1)).card := Finset.card_filter_le _ _
    _ = (Finset.Icc (0 : ℤ) ((st.width : ℤ) - 1)).card *
          (Finset.Icc (0 : ℤ) ((st.height : ℤ) - 1)).card := Finset.card_product _ _
    _ ≤ st.width * st.height := by
          rw [Int.card_Icc, Int.card_Icc]
          have h1 : ((st.width : ℤ) - 1 + 1 - 0).toNat = st.width := by omega
          have h2 : ((st.height : ℤ) - 1 + 1 - 0).toNat = st.height := by omega
          rw [h1, h2]

theorem count_frameEq {st st2 : GameState} (hf : frameEq st st2)
    (hb : ∀ c, st2.cell c = st.cell c) : nonEmptyCount st2 = nonEmptyCount st := by
  unfold nonEmptyCount
  rw [hf.1, hf.2.1]
  apply congrArg
  apply Finset.filter_congr
  intro c _
  rw [hb c]

/-! ### `drop_supported` destroys exactly one non-empty cell -/

theorem dropSupportedAux_count :
    ∀ (n : ℕ) (st : GameState) (x y : ℤ) (st2 : GameState) (cands : List Cell),
      WF st → inRect st.width st.height (x, y) → st.cell (x, y) ≠ some '_' →
      dropSupportedAux n st (x, y) = .ok (st2, cands) →
      nonEmptyCount st2 + 1 = nonEmptyCount st := by
  intro n
  induction n with
  | zero => intro st x y st2 cands _ _ _ heq; simp [dropSupportedAux] at heq
  | succ n ih =>
    intro st x y st2 cands hwf hin hne heq
    have hx0 : 0 ≤ x := hin.1
    have hxw : x < (st.width : ℤ) := hin.2.1
    have hy0 : 0 ≤ y := hin.2.2.1
    have hyh : y < (st.height : ℤ) := hin.2.2.2
    by_cases hy : y = 0
    · subst hy
      simp only [dropSupportedAux, if_pos] at heq
      simp at heq
      obtain ⟨h1, _⟩ := heq
      rw [← h1]
      exact count_setCell_toEmpty hin hne
    · obtain ⟨v, hv⟩ := wf_some hwf (c := (x, y - 1)) ⟨hx0, hxw, by omega, by omega⟩
      simp only [dropSupportedAux, hy, if_neg] at heq
      rw [hv] at heq
      simp only at heq
      by_cases hve : v = '_'
      · rw [if_pos hve] at heq
        simp at heq
        obtain ⟨h1, _⟩ := heq
        rw [← h1]
        exact count_setCell_toEmpty hin hne
      · rw [if_neg hve] at heq
        rcases hrec : dropSupportedAux n (setCell st (x, y) v) (x, y - 1) with e | p
        · rw [hrec] at heq
          simp at heq
        · obtain ⟨st3, rest⟩ := p
          rw [hrec] at heq
          simp at heq
          obtain ⟨h1, _⟩ := heq
          have hwf1 : WF (setCell st (x, y) v) := wf_setCell hwf hin _
          have hin1 : inRect (setCell st (x, y) v).width (setCell st (x, y) v).height
              (x, y - 1) :=
            ⟨hx0, hxw, by show (0 : ℤ) ≤ y - 1; omega, by show y - 1 < (st.height : ℤ); omega⟩
          have hne1 : (setCell st (x, y) v).cell (x, y - 1) ≠ some '_' := by
            rw [setCell_board, if_neg (by simp)]
            rw [hv]
            simp [hve]
          have hcount := ih (setCell st (x, y) v) x (y - 1) st3 rest hwf1 hin1 hne1 hrec
          rw [← h1]
          rw [hcount, count_setCell_keep hne hve]

theorem dropSupported_count {st : GameState} {x y : ℤ} {st2 : GameState} {cands : List Cell}
    (hwf : WF st) (hin : inRect st.width st.height (x, y)) (hne : st.cell (x, y) ≠ some '_')
    (heq : dropSupported st (x, y) = .ok (st2, cands)) :
    nonEmptyCount st2 + 1 = nonEmptyCount st :=
  dropSupportedAux_count (y.toNat + 1) st x y st2 cands hwf hin hne heq

end LetterCrush

namespace LetterCrush

/-! ### The collapse loop over a destroyed set -/

theorem collapseDestroyed_ok :
    ∀ (l : List Cell) (st : GameState), WF st → (∀ c ∈ l, inRect st.width st.height c) →
    ∃ st2 cands, collapseDestroyed st l = .ok (st2, cands) ∧ WF st2 ∧ frameEq st st2 ∧
      st2.score = st.score ∧ (∀ c ∈ cands, inRect st.width st.height c) := by
  intro l
  induction l with
  | nil =>
    intro st hwf _
    exact ⟨st, [], rfl, hwf, frameEq_refl st, rfl, by intro c hc; simp at hc⟩
  | cons c cs ih =>
    intro st hwf hin
    obtain ⟨c1, c2⟩ := c
    have hinc : inRect st.width st.height (c1, c2) := hin _ (List.mem_cons_self _ _)
    obtain ⟨t, stA, cands1, heqA, ht0, hty, hcands1, _, _, _, _, _, hwfA, hframeA, hscoreA⟩ :=
      dropSupported_spec hwf hinc
    have hdims : stA.width = st.width ∧ stA.height = st.height := ⟨hframeA.1, hframeA.2.1⟩
    have hcs : ∀ c3 ∈ cs, inRect stA.width stA.height c3 := by
      intro c3 hc3
      rw [hdims.1, hdims.2]
      exact hin _ (List.mem_cons_of_mem _ hc3)
    obtain ⟨st2, rest, heqB, hwf2, hframeB, hscoreB, hrest⟩ := ih stA hwfA hcs
    refine ⟨st2, cands1 ++ rest, ?_, hwf2, frameEq_trans hframeA hframeB,
      hscoreB.trans hscoreA, ?_⟩
    · simp only [collapseDestroyed, heqA, heqB]
    · intro c3 hc3
      rcases List.mem_append.mp hc3 with h | h
      · rw [hcands1] at h
        obtain ⟨he1, he2, he3⟩ := (mem_descCells c1 c2 t).mp h
        obtain ⟨g1, g2, g3, g4⟩ := hinc
        exact ⟨by omega, by omega, by omega, by omega⟩
      · have := hrest c3 h
        rw [hdims.1, hdims.2] at this
        exact this

theorem collapseDestroyed_count :
    ∀ (l : List Cell) (st : GameState) (st2 : GameState) (cands : List Cell), WF st →
      (∀ c ∈ l, inRect st.width st.height c ∧ st.cell c ≠ some '_') →
      List.Pairwise rowLe l → l.Nodup →
      collapseDestroyed st l = .ok (st2, cands) →
      nonEmptyCount st2 + l.length = nonEmptyCount st := by
  intro l
  induction l with
  | nil =>
    intro st st2 cands _ _ _ _ heq
    simp only [collapseDestroyed] at heq
    injection heq with heq
    injection heq with h1 _
    rw [← h1]
    simp
  | cons c cs ih =>
    intro st st2 cands hwf hin hpair hnodup heq
    obtain ⟨c1, c2⟩ := c
    have hinc := (hin _ (List.mem_cons_self _ _)).1
    have hnec := (hin _ (List.mem_cons_self _ _)).2
    obtain ⟨t, stA, cands1, heqA, ht0, hty, hcands1, _, _, _, _, huntA, hwfA, hframeA,
      hscoreA⟩ := dropSupported_spec hwf hinc
    have hcountA := dropSupported_count hwf hinc hnec heqA
    simp only [collapseDestroyed, heqA] at heq
    rcases hrec : collapseDestroyed stA cs with e | p
    · rw [hrec] at heq
      simp at heq
    · obtain ⟨stB, rest⟩ := p
      rw [hrec] at heq
      simp only [Except.ok.injEq, Prod.mk.injEq] at heq
      obtain ⟨h1, _⟩ := heq
      have hcs : ∀ c3 ∈ cs, inRect stA.width stA.height c3 ∧ stA.cell c3 ≠ some '_' := by
        intro c3 hc3
        have hmem := hin _ (List.mem_cons_of_mem _ hc3)
        have hunch : stA.cell c3 = st.cell c3 := by
          apply huntA
          by_cases hcol : c3.1 = c1
          · right; right
            have hrow : rowLe (c1, c2) c3 := (List.pairwise_cons.mp hpair).1 c3 hc3
            have hne2 : c3 ≠ (c1, c2) := by
              intro hcon
              exact (List.nodup_cons.mp hnodup).1 (hcon ▸ hc3)
            unfold rowLe at hrow
            obtain ⟨d1, d2⟩ := c3
            dsimp only at hcol hrow ⊢
            have hne3 : d2 ≠ c2 := by
              intro hd2
              apply (List.nodup_cons.mp hnodup).1
              have hpp : ((d1, d2) : Cell) = (c1, c2) := by rw [hcol, hd2]
              rw [← hpp]
              exact hc3
            omega
          · exact Or.inl hcol
        refine ⟨by rw [hframeA.1, hframeA.2.1]; exact hmem.1, by rw [hunch]; exact hmem.2⟩
      have hcount2 := ih stA stB rest hwfA hcs (List.pairwise_cons.mp hpair).2
        (List.nodup_cons.mp hnodup).2 hrec
      rw [← h1]
      simp only [List.length_cons]
      omega

theorem dropSupported_compact {st : GameState} {x y : ℤ} {st2 : GameState} {cands : List Cell}
    (hwf : WF st) (hin : inRect st.width st.height (x, y))
    (heq : dropSupported st (x, y) = .ok (st2, cands)) :
    ∀ x2, colCompact st x2 → colCompact st2 x2 := by
  obtain ⟨t, stA, candsA, heqA, ht0, hty, _, hstop, hintv, hempty, hnew, hunt, _, hframeA,
    _⟩ := dropSupported_spec hwf hin
  rw [heqA] at heq
  injection heq with heq
  injection heq with h1 h2
  subst h1
  subst h2
  have hy0 : 0 ≤ y := hin.2.2.1
  have hyh : y < (st.height : ℤ) := hin.2.2.2
  intro x2 hcomp
  have hh : stA.height = st.height := hframeA.2.1
  intro j j2 h0 hle hlt hemp
  rw [hh] at hlt
  by_cases hx2 : x2 = x
  · subst hx2
    by_cases hjt : j < t
    · have he1 : stA.cell (x2, j) = st.cell (x2, j) := hunt (x2, j) (by right; left; exact hjt)
      have he2 : stA.cell (x2, j2) = st.cell (x2, j2) := hunt (x2, j2) (by right; left; omega)
      rw [he2]
      rw [he1] at hemp
      exact hcomp j j2 h0 hle hlt hemp
    · by_cases hjy : j ≤ y
      · by_cases hjeq : j = t
        · subst hjeq
          by_cases hj2 : j2 = j
          · subst hj2
            exact hemp
          · have he2 : stA.cell (x2, j2) = st.cell (x2, j2) := hunt (x2, j2) (by right; left; omega)
            rw [he2]
            rcases hstop with h | h
            · omega
            · exact hcomp (j - 1) j2 h0 (by omega) (by omega) h
        · exfalso
          have hj1 : t < j := by omega
          have := hintv j hj1 hjy
          rw [hnew j hj1 hjy] at hemp
          exact this hemp
      · have hty2 : t = y := by
          by_contra hne
          have hy1 : t < y := by omega
          have h1 := hintv y hy1 (le_refl y)
          have h2 : stA.cell (x2, j) = st.cell (x2, j) := hunt (x2, j) (by right; right; omega)
          rw [h2] at hemp
          exact h1 (hcomp j (y - 1) (by omega) (by omega) hlt hemp)
        subst hty2
        have h2 : stA.cell (x2, j) = st.cell (x2, j) := hunt (x2, j) (by right; right; omega)
        rw [h2] at hemp
        by_cases hj2 : j2 = t
        · subst hj2
          exact hempty
        · by_cases hj2b : j2 < t
          · have he2 : stA.cell (x2, j2) = st.cell (x2, j2) :=
              hunt (x2, j2) (by right; left; omega)
            rw [he2]
            exact hcomp j j2 h0 hle hlt hemp
          · have he2 : stA.cell (x2, j2) = st.cell (x2, j2) :=
              hunt (x2, j2) (by right; right; omega)
            rw [he2]
            exact hcomp j j2 h0 hle hlt hemp
  · have he1 : stA.cell (x2, j) = st.cell (x2, j) := hunt (x2, j) (Or.inl hx2)
    have he2 : stA.cell (x2, j2) = st.cell (x2, j2) := hunt (x2, j2) (Or.inl hx2)
    rw [he2]
    rw [he1] at hemp
    exact hcomp j j2 h0 hle hlt hemp

theorem collapseDestroyed_compact :
    ∀ (l : List Cell) (st : GameState) (st2 : GameState) (cands : List Cell), WF st →
      (∀ c ∈ l, inRect st.width st.height c) →
      collapseDestroyed st l = .ok (st2, cands) →
      ∀ x2, colCompact st x2 → colCompact st2 x2 := by
  intro l
  induction l with
  | nil =>
    intro st st2 cands _ _ heq x2 hcomp
    simp only [collapseDestroyed] at heq
    injection heq with heq
    injection heq with h1 _
    rw [← h1]
    exact hcomp
  | cons c cs ih =>
    intro st st2 cands hwf hin heq x2 hcomp
    obtain ⟨c1, c2⟩ := c
    have hinc := hin _ (List.mem_cons_self _ _)
    obtain ⟨t, stA, cands1, heqA, _, _, _, _, _, _, _, _, hwfA, hframeA, _⟩ :=
      dropSupported_spec hwf hinc
    simp only [collapseDestroyed, heqA] at heq
    rcases hrec : collapseDestroyed stA cs with e | p
    · rw [hrec] at heq
      simp at heq
    · obtain ⟨stB, rest⟩ := p
      rw [hrec] at heq
      simp only [Except.ok.injEq, Prod.mk.injEq] at heq
      obtain ⟨h1, _⟩ := heq
      have hcompA := dropSupported_compact hwf hinc heqA x2 hcomp
      have hcs : ∀ c3 ∈ cs, inRect stA.width stA.height c3 := by
        intro c3 hc3
        rw [hframeA.1, hframeA.2.1]
        exact hin _ (List.mem_cons_of_mem _ hc3)
      rw [← h1]
      exact ih stA stB rest hwfA hcs hrec x2 hcompA

end LetterCrush

namespace LetterCrush

/-! ### Membership in the destroyed set -/

theorem mem_horizCells {c : Cell} (left right y : ℤ) :
    c ∈ horizCells left right y ↔ c.2 = y ∧ left < c.1 ∧ c.1 < right := by
  obtain ⟨c1, c2⟩ := c
  unfold horizCells
  rw [List.mem_map]
  constructor
  · rintro ⟨k, hk, hke⟩
    rw [List.mem_range] at hk
    rw [← hke]
    exact ⟨rfl, by omega, by omega⟩
  · rintro ⟨h1, h2, h3⟩
    dsimp only at h1 h2 h3
    refine ⟨(c1 - left - 1).toNat, by rw [List.mem_range]; omega, ?_⟩
    simp only [Prod.mk.injEq]
    omega

theorem mem_vertCells {c : Cell} (x y down : ℤ) :
    c ∈ vertCells x y down ↔ c.1 = x ∧ y ≤ c.2 ∧ c.2 < down := by
  obtain ⟨c1, c2⟩ := c
  unfold vertCells
  rw [List.mem_map]
  constructor
  · rintro ⟨k, hk, hke⟩
    rw [List.mem_range] at hk
    rw [← hke]
    exact ⟨rfl, by omega, by omega⟩
  · rintro ⟨h1, h2, h3⟩
    dsimp only at h1 h2 h3
    refine ⟨(c2 - y).toNat, by rw [List.mem_range]; omega, ?_⟩
    simp only [Prod.mk.injEq]
    omega

theorem mem_insertNew {c a : Cell} {acc : List Cell} :
    c ∈ insertNew acc a ↔ c ∈ acc ∨ c = a := by
  unfold insertNew
  split
  · rename_i h
    constructor
    · exact fun hc => Or.inl hc
    · rintro (hc | rfl)
      exacts [hc, h]
  · simp [List.mem_append]

theorem mem_foldl_insertNew : ∀ (l acc : List Cell) (c : Cell),
    c ∈ l.foldl insertNew acc ↔ c ∈ acc ∨ c ∈ l := by
  intro l
  induction l with
  | nil => intro acc c; simp
  | cons a l ih =>
    intro acc c
    simp only [List.foldl_cons]
    rw [ih, mem_insertNew, List.mem_cons]
    tauto

theorem nodup_insertNew {a : Cell} {acc : List Cell} (h : acc.Nodup) :
    (insertNew acc a).Nodup := by
  unfold insertNew
  split
  · exact h
  · rename_i hna
    rw [List.nodup_append]
    exact ⟨h, List.nodup_singleton a, by
      intro x hx hxa
      rw [List.mem_singleton] at hxa
      subst hxa
      exact hna hx⟩

theorem nodup_foldl_insertNew : ∀ (l acc : List Cell), acc.Nodup →
    (l.foldl insertNew acc).Nodup := by
  intro l
  induction l with
  | nil => intro acc h; exact h
  | cons a l ih =>
    intro acc h
    simp only [List.foldl_cons]
    exact ih _ (nodup_insertNew h)

theorem mem_buildDestroyed {c : Cell} (dc left right down x y : ℤ) :
    c ∈ buildDestroyed dc left right down x y ↔
      (right - left > dc ∧ c.2 = y ∧ left < c.1 ∧ c.1 < right) ∨
      (down - y ≥ dc ∧ c.1 = x ∧ y ≤ c.2 ∧ c.2 < down) := by
  unfold buildDestroyed
  rw [mem_foldl_insertNew]
  split_ifs with h1 h2 h2
  · rw [mem_horizCells, mem_vertCells]
    tauto
  · rw [mem_horizCells]
    simp only [List.not_mem_nil, or_false]
    tauto
  · rw [mem_vertCells]
    simp only [List.not_mem_nil, false_or]
    tauto
  · simp only [List.not_mem_nil, false_or]
    tauto

theorem nodup_horizCells (left right y : ℤ) : (horizCells left right y).Nodup := by
  unfold horizCells
  exact (List.nodup_range _).map (fun a b hab => by
    simp only [Prod.mk.injEq] at hab
    omega)

theorem nodup_buildDestroyed (dc left right down x y : ℤ) :
    (buildDestroyed dc left right down x y).Nodup := by
  unfold buildDestroyed
  apply nodup_foldl_insertNew
  split
  · exact nodup_horizCells left right y
  · exact List.nodup_nil

/-! ### The sort by row -/

theorem sortByRow_perm (l : List Cell) : List.Perm (sortByRow l) l :=
  List.perm_insertionSort rowLe l

theorem sortByRow_mem {c : Cell} {l : List Cell} : c ∈ sortByRow l ↔ c ∈ l :=
  (sortByRow_perm l).mem_iff

theorem sortByRow_nodup {l : List Cell} (h : l.Nodup) : (sortByRow l).Nodup :=
  ((sortByRow_perm l).nodup_iff).mpr h

theorem sortByRow_length (l : List Cell) : (sortByRow l).length = l.length :=
  (sortByRow_perm l).length_eq

theorem sortByRow_sorted (l : List Cell) : List.Pairwise rowLe (sortByRow l) :=
  List.sorted_insertionSort rowLe l

end LetterCrush

namespace LetterCrush

/-! ### Inversion of the scans: a successful scan only crossed cells holding
the scanned letter -/

theorem scanLeftAux_inv {st : GameState} {y : ℤ} {letter : Char} :
    ∀ (n : ℕ) (left l : ℤ), scanLeftAux st y letter n left = .ok l →
      l ≤ left ∧ (∀ i, l < i → i ≤ left → st.cell (i, y) = some letter) := by
  intro n
  induction n with
  | zero => intro left l heq; simp [scanLeftAux] at heq
  | succ n ih =>
    intro left l heq
    by_cases h0 : 0 ≤ left
    · simp only [scanLeftAux, if_pos h0] at heq
      cases hb : st.cell (left, y) with
      | none => rw [hb] at heq; simp at heq
      | some v =>
        rw [hb] at heq
        simp only at heq
        by_cases hv : v = letter
        · rw [if_pos hv] at heq
          obtain ⟨h1, h2⟩ := ih (left - 1) l heq
          refine ⟨by omega, ?_⟩
          intro i hi1 hi2
          by_cases hi : i ≤ left - 1
          · exact h2 i hi1 hi
          · have : i = left := by omega
            subst this
            rw [hb, hv]
        · rw [if_neg hv] at heq
          simp at heq
          subst heq
          exact ⟨le_refl _, by intro i h1 h2; omega⟩
    · simp only [scanLeftAux, if_neg h0] at heq
      simp at heq
      subst heq
      exact ⟨le_refl _, by intro i h1 h2; omega⟩

theorem scanLeft_inv {st : GameState} {y : ℤ} {letter : Char} {start l : ℤ}
    (heq : scanLeft st y letter start = .ok l) :
    l ≤ start ∧ (∀ i, l < i → i ≤ start → st.cell (i, y) = some letter) :=
  scanLeftAux_inv _ start l heq

theorem scanRightAux_inv {st : GameState} {y : ℤ} {letter : Char} :
    ∀ (n : ℕ) (right r : ℤ), scanRightAux st y letter n right = .ok r →
      right ≤ r ∧ (∀ i, right ≤ i → i < r → st.cell (i, y) = some letter) := by
  intro n
  induction n with
  | zero => intro right r heq; simp [scanRightAux] at heq
  | succ n ih =>
    intro right r heq
    by_cases h0 : right < (st.width : ℤ)
    · simp only [scanRightAux, if_pos h0] at heq
      cases hb : st.cell (right, y) with
      | none => rw [hb] at heq; simp at heq
      | some v =>
        rw [hb] at heq
        simp only at heq
        by_cases hv : v = letter
        · rw [if_pos hv] at heq
          obtain ⟨h1, h2⟩ := ih (right + 1) r heq
          refine ⟨by omega, ?_⟩
          intro i hi1 hi2
          by_cases hi : right + 1 ≤ i
          · exact h2 i hi hi2
          · have : i = right := by omega
            subst this
            rw [hb, hv]
        · rw [if_neg hv] at heq
          simp at heq
          subst heq
          exact ⟨le_refl _, by intro i h1 h2; omega⟩
    · simp only [scanRightAux, if_neg h0] at heq
      simp at heq
      subst heq
      exact ⟨le_refl _, by intro i h1 h2; omega⟩

theorem scanRight_inv {st : GameState} {y : ℤ} {letter : Char} {start r : ℤ}
    (heq : scanRight st y letter start = .ok r) :
    start ≤ r ∧ (∀ i, start ≤ i → i < r → st.cell (i, y) = some letter) :=
  scanRightAux_inv _ start r heq

theorem scanDownAux_inv {st : GameState} {x : ℤ} {letter : Char} :
    ∀ (n : ℕ) (down d : ℤ), scanDownAux st x letter n down = .ok d →
      down ≤ d ∧ (∀ j, down ≤ j → j < d → st.cell (x, j) = some letter) := by
  intro n
  induction n with
  | zero => intro down d heq; simp [scanDownAux] at heq
  | succ n ih =>
    intro down d heq
    by_cases h0 : down < (st.height : ℤ)
    · simp only [scanDownAux, if_pos h0] at heq
      cases hb : st.cell (x, down) with
      | none => rw [hb] at heq; simp at heq
      | some v =>
        rw [hb] at heq
        simp only at heq
        by_cases hv : v = letter
        · rw [if_pos hv] at heq
          obtain ⟨h1, h2⟩ := ih (down + 1) d heq
          refine ⟨by omega, ?_⟩
          intro j hj1 hj2
          by_cases hj : down + 1 ≤ j
          · exact h2 j hj hj2
          · have : j = down := by omega
            subst this
            rw [hb, hv]
        · rw [if_neg hv] at heq
          simp at heq
          subst heq
          exact ⟨le_refl _, by intro j h1 h2; omega⟩
    · simp only [scanDownAux, if_neg h0] at heq
      simp at heq
      subst heq
      exact ⟨le_refl _, by intro j h1 h2; omega⟩

theorem scanDown_inv {st : GameState} {x : ℤ} {letter : Char} {start d : ℤ}
    (heq : scanDown st x letter start = .ok d) :
    start ≤ d ∧ (∀ j, start ≤ j → j < d → st.cell (x, j) = some letter) :=
  scanDownAux_inv _ start d heq

/-! ### Frame and score facts that hold for any successful run -/

theorem dropSupportedAux_frame :
    ∀ (n : ℕ) (st : GameState) (c : Cell) (st2 : GameState) (cands : List Cell),
      dropSupportedAux n st c = .ok (st2, cands) →
      frameEq st st2 ∧ st2.score = st.score := by
  intro n
  induction n with
  | zero => intro st c st2 cands heq; simp [dropSupportedAux] at heq
  | succ n ih =>
    intro st c st2 cands heq
    obtain ⟨x, y⟩ := c
    by_cases hy : y = 0
    · subst hy
      simp only [dropSupportedAux, if_pos] at heq
      simp at heq
      obtain ⟨h1, _⟩ := heq
      rw [← h1]
      exact ⟨frameEq_setCell st _ _, rfl⟩
    · simp only [dropSupportedAux, hy, if_neg] at heq
      cases hb : st.cell (x, y - 1) with
      | none => rw [hb] at heq; simp at heq
      | some v =>
        rw [hb] at heq
        simp only at heq
        by_cases hve : v = '_'
        · rw [if_pos hve] at heq
          simp at heq
          obtain ⟨h1, _⟩ := heq
          rw [← h1]
          exact ⟨frameEq_setCell st _ _, rfl⟩
        · rw [if_neg hve] at heq
          rcases hrec : dropSupportedAux n (setCell st (x, y) v) (x, y - 1) with e | p
          · rw [hrec] at heq
            simp at heq
          · obtain ⟨st3, rest⟩ := p
            rw [hrec] at heq
            simp at heq
            obtain ⟨h1, _⟩ := heq
            obtain ⟨hf, hs⟩ := ih (setCell st (x, y) v) (x, y - 1) st3 rest hrec
            rw [← h1]
            exact ⟨frameEq_trans (frameEq_setCell st _ _) hf, hs.trans rfl⟩

theorem collapseDestroyed_frame :
    ∀ (l : List Cell) (st : GameState) (st2 : GameState) (cands : List Cell),
      collapseDestroyed st l = .ok (st2, cands) →
      frameEq st st2 ∧ st2.score = st.score := by
  intro l
  induction l with
  | nil =>
    intro st st2 cands heq
    simp only [collapseDestroyed] at heq
    injection heq with heq
    injection heq with h1 _
    rw [← h1]
    exact ⟨frameEq_refl st, rfl⟩
  | cons c cs ih =>
    intro st st2 cands heq
    rcases hA : dropSupported st c with e | p
    · simp only [collapseDestroyed, hA] at heq
      simp at heq
    · obtain ⟨stA, newC⟩ := p
      simp only [collapseDestroyed, hA] at heq
      rcases hB : collapseDestroyed stA cs with e | p2
      · rw [hB] at heq
        simp at heq
      · obtain ⟨stB, rest⟩ := p2
        rw [hB] at heq
        simp only [Except.ok.injEq, Prod.mk.injEq] at heq
        obtain ⟨h1, _⟩ := heq
        obtain ⟨hfA, hsA⟩ := dropSupportedAux_frame _ st c stA newC hA
        obtain ⟨hfB, hsB⟩ := ih stA stB rest hB
        rw [← h1]
        exact ⟨frameEq_trans hfA hfB, hsB.trans hsA⟩

theorem childLoop_mono {rec : GameState → ℤ → ℤ → Char → ℕ → Except Err GameState}
    (hrec : ∀ st x y letter d st2, rec st x y letter d = .ok st2 →
      frameEq st st2 ∧ st.score ≤ st2.score) :
    ∀ (cands : List Cell) (st : GameState) (d : ℕ) (st2 : GameState),
      childLoop rec st cands d = .ok st2 → frameEq st st2 ∧ st.score ≤ st2.score := by
  intro cands
  induction cands with
  | nil =>
    intro st d st2 heq
    simp only [childLoop] at heq
    injection heq with h1
    rw [← h1]
    exact ⟨frameEq_refl st, le_refl _⟩
  | cons c cs ih =>
    intro st d st2 heq
    simp only [childLoop] at heq
    rcases hl : lookup st c with e | letter
    · rw [hl] at heq
      simp at heq
    · rw [hl] at heq
      simp only at heq
      rcases hr : rec st c.1 c.2 letter d with e | stA
      · rw [hr] at heq
        simp at heq
      · rw [hr] at heq
        simp only at heq
        obtain ⟨hf1, hs1⟩ := hrec st c.1 c.2 letter d stA hr
        obtain ⟨hf2, hs2⟩ := ih stA d st2 heq
        exact ⟨frameEq_trans hf1 hf2, le_trans hs1 hs2⟩

theorem cadm_mono :
    ∀ (fuel : ℕ) (st : GameState) (x y : ℤ) (letter : Char) (depth : ℕ) (st2 : GameState),
      cadm fuel st x y letter depth = .ok st2 → frameEq st st2 ∧ st.score ≤ st2.score := by
  intro fuel
  induction fuel with
  | zero => intro st x y letter depth st2 heq; simp [cadm] at heq
  | succ f ih =>
    intro st x y letter depth st2 heq
    simp only [cadm, cadmStep] at heq
    by_cases hl : letter = '_'
    · rw [if_pos hl] at heq
      simp at heq
      rw [← heq]
      exact ⟨frameEq_refl st, le_refl _⟩
    · rw [if_neg hl] at heq
      rcases h1 : scanLeft st y letter x with e | left
      · rw [h1] at heq; simp at heq
      · rw [h1] at heq
        simp only at heq
        rcases h2 : scanRight st y letter x with e | right
        · rw [h2] at heq; simp at heq
        · rw [h2] at heq
          simp only at heq
          rcases h3 : scanDown st x letter y with e | down
          · rw [h3] at heq; simp at heq
          · rw [h3] at heq
            simp only at heq
            rcases h4 : collapseDestroyed
                (addScore st (10 * ((buildDestroyed st.destroyCount left right down x
                  y).length : ℤ) * (depth : ℤ)))
                (sortByRow (buildDestroyed st.destroyCount left right down x y)) with e | p
            · rw [h4] at heq; simp at heq
            · obtain ⟨stA, cands⟩ := p
              rw [h4] at heq
              simp only at heq
              obtain ⟨hfA, hsA⟩ := collapseDestroyed_frame _ _ _ _ h4
              obtain ⟨hfB, hsB⟩ := childLoop_mono (fun st x y letter d st2 h => ih st x y
                letter d st2 h) cands stA (depth + 1) st2 heq
              have hstep : frameEq st (addScore st (10 * ((buildDestroyed st.destroyCount
                  left right down x y).length : ℤ) * (depth : ℤ))) :=
                ⟨rfl, rfl, rfl, rfl, rfl, rfl⟩
              have hsc : st.score ≤ (addScore st (10 * ((buildDestroyed st.destroyCount
                  left right down x y).length : ℤ) * (depth : ℤ))).score := by
                unfold addScore
                simp only
                have hge : (0 : ℤ) ≤ 10 * ((buildDestroyed st.destroyCount left right down
                    x y).length : ℤ) * (depth : ℤ) := by positivity
                omega
              refine ⟨frameEq_trans (frameEq_trans hstep hfA) hfB, ?_⟩
              calc st.score ≤ _ := hsc
                _ = stA.score := hsA.symm
                _ ≤ st2.score := hsB

end LetterCrush

namespace LetterCrush

/-! ### The destroyed cells all hold the matched letter -/

theorem buildDestroyed_all_letter {st : GameState} {x y left right down : ℤ} {letter : Char}
    (hL : scanLeft st y letter x = .ok left) (hR : scanRight st y letter x = .ok right)
    (hD : scanDown st x letter y = .ok down) :
    ∀ c ∈ buildDestroyed st.destroyCount left right down x y,
      st.cell c = some letter := by
  intro c hc
  rcases (mem_buildDestroyed _ _ _ _ _ _).mp hc with ⟨_, hcy, hc1, hc2⟩ | ⟨_, hcx, hc1, hc2⟩
  · obtain ⟨hl1, hl2⟩ := scanLeft_inv hL
    obtain ⟨hr1, hr2⟩ := scanRight_inv hR
    obtain ⟨c1, c2⟩ := c
    dsimp only at hcy hc1 hc2
    subst hcy
    by_cases hcle : c1 ≤ x
    · exact hl2 c1 hc1 hcle
    · exact hr2 c1 (by omega) hc2
  · obtain ⟨hd1, hd2⟩ := scanDown_inv hD
    obtain ⟨c1, c2⟩ := c
    dsimp only at hcx hc1 hc2
    subst hcx
    exact hd2 c2 hc1 hc2

theorem wf_addScore {st : GameState} (h : WF st) (k : ℤ) : WF (addScore st k) := h

theorem count_addScore (st : GameState) (k : ℤ) :
    nonEmptyCount (addScore st k) = nonEmptyCount st := rfl

theorem nonEmptyCount_pos {st : GameState} {c : Cell} {letter : Char}
    (hin : inRect st.width st.height c) (hb : st.cell c = some letter) (hl : letter ≠ '_') :
    1 ≤ nonEmptyCount st := by
  apply Finset.card_pos.mpr
  refine ⟨c, Finset.mem_filter.mpr ⟨mem_rectFinset.mpr hin, ?_⟩⟩
  rw [hb]
  simp [hl]

/-! ### Threading facts through the cascade loop over new candidates -/

theorem childLoop_pres {rec : GameState → ℤ → ℤ → Char → ℕ → Except Err GameState}
    (hpres : ∀ st x y letter d st2, WF st → rec st x y letter d = .ok st2 → WF st2) :
    ∀ (cands : List Cell) (st : GameState) (d : ℕ) (st2 : GameState), WF st →
      childLoop rec st cands d = .ok st2 → WF st2 := by
  intro cands
  induction cands with
  | nil =>
    intro st d st2 hwf heq
    simp only [childLoop] at heq
    injection heq with h1
    rw [← h1]
    exact hwf
  | cons c cs ih =>
    intro st d st2 hwf heq
    simp only [childLoop] at heq
    rcases hl : lookup st c with e | letter
    · rw [hl] at heq
      simp at heq
    · rw [hl] at heq
      simp only at heq
      rcases hr : rec st c.1 c.2 letter d with e | stA
      · rw [hr] at heq
        simp at heq
      · rw [hr] at heq
        simp only at heq
        exact ih stA d st2 (hpres st c.1 c.2 letter d stA hwf hr) heq

theorem childLoop_safe {rec : GameState → ℤ → ℤ → Char → ℕ → Except Err GameState}
    (hsafe : ∀ st x y letter d, WF st → inRect st.width st.height (x, y) →
      rec st x y letter d ≠ .error .keyError)
    (hpres : ∀ st x y letter d st2, WF st → rec st x y letter d = .ok st2 →
      WF st2 ∧ frameEq st st2) :
    ∀ (cands : List Cell) (st : GameState) (d : ℕ), WF st →
      (∀ c ∈ cands, inRect st.width st.height c) →
      childLoop rec st cands d ≠ .error .keyError := by
  intro cands
  induction cands with
  | nil =>
    intro st d _ _
    simp [childLoop]
  | cons c cs ih =>
    intro st d hwf hin
    obtain ⟨c1, c2⟩ := c
    have hinc : inRect st.width st.height (c1, c2) := hin _ (List.mem_cons_self _ _)
    obtain ⟨v, hv⟩ := wf_some hwf hinc
    simp only [childLoop, lookup_of_some hv]
    rcases hr : rec st c1 c2 v d with e | stA
    · simp only
      intro hcon
      injection hcon with he
      subst he
      exact hsafe st c1 c2 v d hwf hinc hr
    · simp only
      obtain ⟨hwfA, hframeA⟩ := hpres st c1 c2 v d stA hwf hr
      apply ih stA d hwfA
      intro c3 hc3
      rw [hframeA.1, hframeA.2.1]
      exact hin _ (List.mem_cons_of_mem _ hc3)

theorem childLoop_ok {rec : GameState → ℤ → ℤ → Char → ℕ → Except Err GameState} {B : ℕ}
    (hrec : ∀ st x y letter d, WF st → inRect st.width st.height (x, y) →
      nonEmptyCount st < B →
      ∃ st2, rec st x y letter d = .ok st2 ∧ WF st2 ∧ frameEq st st2 ∧
        nonEmptyCount st2 ≤ nonEmptyCount st) :
    ∀ (cands : List Cell) (st : GameState) (d : ℕ), WF st →
      (∀ c ∈ cands, inRect st.width st.height c) → nonEmptyCount st < B →
      ∃ st2, childLoop rec st cands d = .ok st2 ∧ WF st2 ∧ frameEq st st2 ∧
        nonEmptyCount st2 ≤ nonEmptyCount st := by
  intro cands
  induction cands with
  | nil =>
    intro st d hwf _ _
    exact ⟨st, rfl, hwf, frameEq_refl st, le_refl _⟩
  | cons c cs ih =>
    intro st d hwf hin hB
    obtain ⟨c1, c2⟩ := c
    have hinc : inRect st.width st.height (c1, c2) := hin _ (List.mem_cons_self _ _)
    obtain ⟨v, hv⟩ := wf_some hwf hinc
    obtain ⟨stA, hA, hwfA, hframeA, hcountA⟩ := hrec st c1 c2 v d hwf hinc hB
    have hcountA2 : nonEmptyCount stA < B := lt_of_le_of_lt hcountA hB
    have hcs : ∀ c3 ∈ cs, inRect stA.width stA.height c3 := by
      intro c3 hc3
      rw [hframeA.1, hframeA.2.1]
      exact hin _ (List.mem_cons_of_mem _ hc3)
    obtain ⟨st2, heq2, hwf2, hframe2, hcount2⟩ := ih stA d hwfA hcs hcountA2
    refine ⟨st2, ?_, hwf2, frameEq_trans hframeA hframe2, le_trans hcount2 hcountA⟩
    simp only [childLoop, lookup_of_some hv, hA]
    exact heq2

/-! ### The cascade recursion: well-formedness, absence of key errors, and
fuel sufficiency -/

theorem cadm_pres :
    ∀ (fuel : ℕ) (st : GameState) (x y : ℤ) (letter : Char) (depth : ℕ) (st2 : GameState),
      WF st → cadm fuel st x y letter depth = .ok st2 → WF st2 := by
  intro fuel
  induction fuel with
  | zero => intro st x y letter depth st2 _ heq; simp [cadm] at heq
  | succ f ih =>
    intro st x y letter depth st2 hwf heq
    simp only [cadm, cadmStep] at heq
    by_cases hl : letter = '_'
    · rw [if_pos hl] at heq
      simp at heq
      rw [← heq]
      exact hwf
    · rw [if_neg hl] at heq
      rcases h1 : scanLeft st y letter x with e | left
      · rw [h1] at heq; simp at heq
      · rw [h1] at heq
        simp only at heq
        rcases h2 : scanRight st y letter x with e | right
        · rw [h2] at heq; simp at heq
        · rw [h2] at heq
          simp only at heq
          rcases h3 : scanDown st x letter y with e | down
          · rw [h3] at heq; simp at heq
          · rw [h3] at heq
            simp only at heq
            have hall := buildDestroyed_all_letter h1 h2 h3
            have hinr : ∀ c ∈ sortByRow (buildDestroyed st.destroyCount left right down x y),
                inRect st.width st.height c := fun c hc =>
              wf_inRect_of_some hwf (hall c (sortByRow_mem.mp hc))
            obtain ⟨stB, candsB, heqB, hwfB, hframeB, _, hcandsB⟩ :=
              collapseDestroyed_ok
                (sortByRow (buildDestroyed st.destroyCount left right down x y))
                (addScore st (10 * ((buildDestroyed st.destroyCount left right down x
                  y).length : ℤ) * (depth : ℤ))) (wf_addScore hwf _) hinr
            rw [heqB] at heq
            simp only at heq
            exact childLoop_pres (fun st x y letter d st2 hw he =>
              ih st x y letter d st2 hw he) candsB stB (depth + 1) st2 hwfB heq

theorem cadm_safe :
    ∀ (fuel : ℕ) (st : GameState) (x y : ℤ) (letter : Char) (depth : ℕ), WF st →
      0 ≤ x → x < (st.width : ℤ) → 0 ≤ y → y < (st.height : ℤ) →
      cadm fuel st x y letter depth ≠ .error .keyError := by
  intro fuel
  induction fuel with
  | zero =>
    intro st x y letter depth _ _ _ _ _
    simp [cadm]
  | succ f ih =>
    intro st x y letter depth hwf hx0 hxw hy0 hyh
    simp only [cadm, cadmStep]
    by_cases hl : letter = '_'
    · rw [if_pos hl]
      simp
    · rw [if_neg hl]
      obtain ⟨left, h1, _, _, _, _⟩ := scanLeft_spec hwf hy0 hyh (by omega) hxw
      rw [h1]
      simp only
      obtain ⟨right, h2, _, _, _, _⟩ := scanRight_spec hwf hy0 hyh hx0 (by omega)
      rw [h2]
      simp only
      obtain ⟨down, h3, _, _, _, _⟩ := scanDown_spec hwf hx0 hxw hy0 (by omega)
      rw [h3]
      simp only
      have hall := buildDestroyed_all_letter h1 h2 h3
      have hinr : ∀ c ∈ sortByRow (buildDestroyed st.destroyCount left right down x y),
          inRect st.width st.height c := fun c hc =>
        wf_inRect_of_some hwf (hall c (sortByRow_mem.mp hc))
      obtain ⟨stB, candsB, heqB, hwfB, hframeB, _, hcandsB⟩ :=
        collapseDestroyed_ok
          (sortByRow (buildDestroyed st.destroyCount left right down x y))
          (addScore st (10 * ((buildDestroyed st.destroyCount left right down x
            y).length : ℤ) * (depth : ℤ))) (wf_addScore hwf _) hinr
      rw [heqB]
      simp only
      apply childLoop_safe
        (fun st x y letter d hw hin => ih st x y letter d hw hin.1 hin.2.1 hin.2.2.1 hin.2.2.2)
        (fun st x y letter d st2 hw he =>
          ⟨cadm_pres f st x y letter d st2 hw he, (cadm_mono f st x y letter d st2 he).1⟩)
        candsB stB (depth + 1) hwfB
      intro c3 hc3
      rw [hframeB.1, hframeB.2.1]
      exact hcandsB c3 hc3

end LetterCrush

namespace LetterCrush

theorem cadm_ok :
    ∀ (fuel : ℕ) (st : GameState) (x y : ℤ) (letter : Char) (depth : ℕ), WF st →
      0 ≤ x → x < (st.width : ℤ) → 0 ≤ y → y < (st.height : ℤ) →
      nonEmptyCount st < fuel →
      ∃ st2, cadm fuel st x y letter depth = .ok st2 ∧ WF st2 ∧ frameEq st st2 ∧
        nonEmptyCount st2 ≤ nonEmptyCount st := by
  intro fuel
  induction fuel with
  | zero => intro st x y letter depth _ _ _ _ _ hB; omega
  | succ f ih =>
    intro st x y letter depth hwf hx0 hxw hy0 hyh hB
    by_cases hl : letter = '_'
    · refine ⟨st, ?_, hwf, frameEq_refl st, le_refl _⟩
      simp [cadm, cadmStep, hl]
    · obtain ⟨left, h1, hl1, hl2, hl3, hl4⟩ := @scanLeft_spec st y letter x hwf hy0 hyh (by omega) hxw
      obtain ⟨right, h2, hr1, hr2, hr3, hr4⟩ := @scanRight_spec st y letter x hwf hy0 hyh hx0 (by omega)
      obtain ⟨down, h3, hd1, hd2, hd3, hd4⟩ := @scanDown_spec st x letter y hwf hx0 hxw hy0 (by omega)
      have hall := buildDestroyed_all_letter h1 h2 h3
      have hinr : ∀ c ∈ sortByRow (buildDestroyed st.destroyCount left right down x y),
          inRect st.width st.height c := fun c hc =>
        wf_inRect_of_some hwf (hall c (sortByRow_mem.mp hc))
      obtain ⟨stB, candsB, heqB, hwfB, hframeB, hscoreB, hcandsB⟩ :=
        collapseDestroyed_ok
          (sortByRow (buildDestroyed st.destroyCount left right down x y))
          (addScore st (10 * ((buildDestroyed st.destroyCount left right down x
            y).length : ℤ) * (depth : ℤ))) (wf_addScore hwf _) hinr
      have hstepFrame : frameEq st (addScore st (10 * ((buildDestroyed st.destroyCount left
          right down x y).length : ℤ) * (depth : ℤ))) := ⟨rfl, rfl, rfl, rfl, rfl, rfl⟩
      by_cases hnil : buildDestroyed st.destroyCount left right down x y = []
      · have hsort : sortByRow (buildDestroyed st.destroyCount left right down x y) = [] := by
          rw [hnil]
          rfl
        rw [hsort] at heqB
        simp only [collapseDestroyed] at heqB
        injection heqB with heqB
        injection heqB with hb1 hb2
        refine ⟨stB, ?_, hwfB, frameEq_trans hstepFrame hframeB, ?_⟩
        · simp only [cadm, cadmStep, if_neg hl]
          rw [h1]
          simp only
          rw [h2]
          simp only
          rw [h3]
          simp only
          rw [hsort]
          simp only [collapseDestroyed, childLoop]
          rw [hb1]
        · rw [← hb1]
          rw [count_addScore]
      · have hcells : ∀ c ∈ sortByRow (buildDestroyed st.destroyCount left right down x y),
            inRect st.width st.height c ∧ st.cell c ≠ some '_' := by
          intro c hc
          refine ⟨hinr c hc, ?_⟩
          rw [hall c (sortByRow_mem.mp hc)]
          simp [hl]
        have hcount := collapseDestroyed_count
          (sortByRow (buildDestroyed st.destroyCount left right down x y))
          (addScore st (10 * ((buildDestroyed st.destroyCount left right down x
            y).length : ℤ) * (depth : ℤ))) stB candsB (wf_addScore hwf _) hcells
          (sortByRow_sorted _) (sortByRow_nodup (nodup_buildDestroyed _ _ _ _ _ _)) heqB
        rw [count_addScore] at hcount
        have hlen : 1 ≤ (sortByRow (buildDestroyed st.destroyCount left right down x
            y)).length := by
          rw [sortByRow_length]
          exact List.length_pos.mpr hnil
        have hcount2 : nonEmptyCount stB < f := by omega
        have hcandsB2 : ∀ c ∈ candsB, inRect stB.width stB.height c := by
          intro c3 hc3
          rw [hframeB.1, hframeB.2.1]
          exact hcandsB c3 hc3
        obtain ⟨st2, heq2, hwf2, hframe2, hcount3⟩ :=
          childLoop_ok (B := f) (fun st x y letter d hw hin hc =>
            ih st x y letter d hw hin.1 hin.2.1 hin.2.2.1 hin.2.2.2 hc)
            candsB stB (depth + 1) hwfB hcandsB2 hcount2
        refine ⟨st2, ?_, hwf2,
          frameEq_trans (frameEq_trans hstepFrame hframeB) hframe2, by omega⟩
        simp only [cadm, cadmStep, if_neg hl]
        rw [h1]
        simp only
        rw [h2]
        simp only
        rw [h3]
        simp only
        rw [heqB]
        simp only
        exact heq2

end LetterCrush

namespace LetterCrush

/-! ### The drop operation -/

theorem findLanding_full {st : GameState} {x : ℤ} (hwf : WF st) (hx0 : 0 ≤ x)
    (hxw : x < (st.width : ℤ))
    (hfull : ∀ j : ℤ, 0 ≤ j → j < (st.height : ℤ) → st.cell (x, j) ≠ some '_') :
    findLanding st x ((st.height : ℤ) - 1) = .ok (-1) := by
  obtain ⟨res, heq, hr1, hr2, _, hr4⟩ :=
    @findLanding_spec st x ((st.height : ℤ) - 1) hwf hx0 hxw (by omega) (by omega)
  have hres : res = -1 := by
    by_contra hne
    have h0 : 0 ≤ res := by omega
    exact hfull res h0 (by omega) (hr4 h0)
  rw [hres] at heq
  exact heq

theorem dropLetter_score {fuel : ℕ} {nl : Char} {st st2 : GameState}
    (heq : dropLetter fuel nl st = .ok st2) : st.score ≤ st2.score := by
  unfold dropLetter at heq
  rcases hf : findLanding st st.cursor ((st.height : ℤ) - 1) with e | yres
  · rw [hf] at heq
    simp at heq
  · rw [hf] at heq
    simp only at heq
    by_cases hy : yres = -1
    · rw [if_pos hy] at heq
      simp at heq
      rw [← heq]
    · rw [if_neg hy] at heq
      rcases hlk : lookup (setCell st (st.cursor, yres) st.currentLetter)
          (st.cursor, yres) with e | v
      · rw [hlk] at heq
        simp at heq
      · rw [hlk] at heq
        simp only at heq
        rcases hc : cadm fuel (setCell st (st.cursor, yres) st.currentLetter)
            st.cursor yres v 1 with e | stA
        · rw [hc] at heq
          simp at heq
        · rw [hc] at heq
          simp only [Except.ok.injEq] at heq
          have hmono := (cadm_mono fuel _ _ _ _ _ _ hc).2
          rw [← heq]
          exact hmono

theorem dropLetter_safe {st : GameState} (hwf : WF st) (h0 : 0 ≤ st.cursor)
    (hw : st.cursor < (st.width : ℤ)) (fuel : ℕ) (nl : Char) :
    dropLetter fuel nl st ≠ .error .keyError := by
  unfold dropLetter
  obtain ⟨res, heq, hr1, hr2, _, hr4⟩ :=
    @findLanding_spec st st.cursor ((st.height : ℤ) - 1) hwf h0 hw (by omega) (by omega)
  rw [heq]
  simp only
  by_cases hy : res = -1
  · rw [if_pos hy]
    simp
  · rw [if_neg hy]
    have hres0 : 0 ≤ res := by omega
    have hresh : res < (st.height : ℤ) := by omega
    have hinres : inRect st.width st.height (st.cursor, res) := ⟨h0, hw, hres0, hresh⟩
    have hlk : lookup (setCell st (st.cursor, res) st.currentLetter) (st.cursor, res) =
        .ok st.currentLetter := by
      apply lookup_of_some
      rw [setCell_board, if_pos rfl]
    rw [hlk]
    simp only
    have hwf1 : WF (setCell st (st.cursor, res) st.currentLetter) :=
      wf_setCell hwf hinres _
    rcases hc : cadm fuel (setCell st (st.cursor, res) st.currentLetter)
        st.cursor res st.currentLetter 1 with e | stA
    · simp only
      intro hcon
      injection hcon with he
      subst he
      exact cadm_safe fuel _ _ _ _ _ hwf1 h0 hw hres0 hresh hc
    · simp only
      intro hcon
      exact Except.noConfusion hcon

end LetterCrush

namespace LetterCrush

/-! ### Evaluating Scenario A step by step -/

theorem except_bind_ok {α β : Type} (a : α) (f : α → Except Err β) :
    (Except.ok a : Except Err α) >>= f = f a := rfl

theorem scenA_step1 : cursorLeft (initState 5 1 3 'A') = .ok scenA1 := by decide

theorem scenA_step2 : cursorLeft scenA1 = .ok scenA2 := by decide

theorem scenA_step3 : dropLetter 6 'A' scenA2 = .ok scenA3 := by decide

theorem scenA_step4 : cursorRight scenA3 = .ok scenA4 := by decide

theorem scenA_step5 : dropLetter 6 'A' scenA4 = .ok scenA5 := by decide

theorem scenA_step6 : cursorRight scenA5 = .ok scenA6 := by decide

theorem scenA_step7 : dropLetter 6 'A' scenA6 = .ok scenA7 := by decide

theorem scenarioA_eq : scenarioA = .ok scenA7 := by
  unfold scenarioA
  rw [scenA_step1]
  simp only [except_bind_ok]
  rw [scenA_step2]
  simp only [except_bind_ok]
  rw [scenA_step3]
  simp only [except_bind_ok]
  rw [scenA_step4]
  simp only [except_bind_ok]
  rw [scenA_step5]
  simp only [except_bind_ok]
  rw [scenA_step6]
  simp only [except_bind_ok]
  exact scenA_step7

end LetterCrush

namespace LetterCrush

/-! ## The claims -/

/-- Claim C1, as stated, is false on the code: a horizontal run whose
length equals `matchThreshold` does qualify for destruction (the code
compares `right - left`, which is the run length plus one, against the
threshold).  The statement below is the claim's qualification rule — with
no run qualifying, nothing is destroyed — refuted on a width-3 row `A A A`
with threshold 3, where the vertical span is below threshold and the
horizontal run length 3 is not strictly greater than 3, yet the destroyed
set is non-empty. -/
theorem claim_C1_cex :
    ¬(∀ (st : GameState) (x y left right down : ℤ) (letter : Char),
      WF st → 0 ≤ x → x < (st.width : ℤ) → 0 ≤ y → y < (st.height : ℤ) →
      st.cell (x, y) = some letter → letter ≠ '_' →
      scanLeft st y letter x = .ok left → scanRight st y letter x = .ok right →
      scanDown st x letter y = .ok down →
      ¬(right - left - 1 > st.destroyCount) → down - y < st.destroyCount →
      buildDestroyed st.destroyCount left right down x y = []) := by
  intro h
  have hx := h rowA3 1 0 (-1) 3 1 'A' (wf_mk rowA3 (fun _ => 'A') rfl) (by decide)
    (by decide) (by decide) (by decide) (by decide) (by decide) (by decide) (by decide)
    (by decide) (by decide) (by decide)
  exact absurd hx (by decide)

/-- Claim C1, amended: for every grid, in-bounds origin holding the
non-empty seed letter, and successful scans, the window `(left, right)` is
exactly the maximal horizontal run through the origin and `[y, down)` the
maximal downward span, and a cell is destroyed exactly when it lies on the
horizontal run and the run's length is at least `matchThreshold`, or on
the downward vertical span and that span's length is at least
`matchThreshold` (both comparisons are inclusive; the vertical span does
not extend above the origin). -/
theorem claim_C1 (st : GameState) (x y left right down : ℤ) (letter : Char)
    (hwf : WF st) (hx0 : 0 ≤ x) (hxw : x < (st.width : ℤ)) (hy0 : 0 ≤ y)
    (hyh : y < (st.height : ℤ)) (hor : st.cell (x, y) = some letter) (hne : letter ≠ '_')
    (hL : scanLeft st y letter x = .ok left) (hR : scanRight st y letter x = .ok right)
    (hD : scanDown st x letter y = .ok down) :
    (∀ i, left < i → i < right → st.cell (i, y) = some letter) ∧
    (0 ≤ left → st.cell (left, y) ≠ some letter) ∧
    (right < (st.width : ℤ) → st.cell (right, y) ≠ some letter) ∧
    (∀ j, y ≤ j → j < down → st.cell (x, j) = some letter) ∧
    (down < (st.height : ℤ) → st.cell (x, down) ≠ some letter) ∧
    (∀ c : Cell, c ∈ buildDestroyed st.destroyCount left right down x y ↔
      ((st.destroyCount ≤ right - left - 1 ∧ c.2 = y ∧ left < c.1 ∧ c.1 < right) ∨
       (st.destroyCount ≤ down - y ∧ c.1 = x ∧ y ≤ c.2 ∧ c.2 < down))) := by
  obtain ⟨l0, hL0, hl1, hl2, hl3, hl4⟩ := @scanLeft_spec st y letter x hwf hy0 hyh
    (by omega) hxw
  rw [hL] at hL0
  injection hL0 with he
  subst he
  obtain ⟨r0, hR0, hr1, hr2, hr3, hr4⟩ := @scanRight_spec st y letter x hwf hy0 hyh hx0
    (by omega)
  rw [hR] at hR0
  injection hR0 with he
  subst he
  obtain ⟨d0, hD0, hd1, hd2, hd3, hd4⟩ := @scanDown_spec st x letter y hwf hx0 hxw hy0
    (by omega)
  rw [hD] at hD0
  injection hD0 with he
  subst he
  refine ⟨?_, hl4, hr4, hd3, hd4, ?_⟩
  · intro i hi1 hi2
    by_cases hix : i ≤ x
    · exact hl3 i hi1 hix
    · exact hr3 i (by omega) hi2
  · intro c
    rw [mem_buildDestroyed]
    constructor
    · rintro (⟨ha, hb, hc2, hd⟩ | ⟨ha, hb, hc2, hd⟩)
      · exact Or.inl ⟨by omega, hb, hc2, hd⟩
      · exact Or.inr ⟨ha, hb, hc2, hd⟩
    · rintro (⟨ha, hb, hc2, hd⟩ | ⟨ha, hb, hc2, hd⟩)
      · exact Or.inl ⟨by omega, hb, hc2, hd⟩
      · exact Or.inr ⟨ha, hb, hc2, hd⟩

/-- Claim C1's amended rule at a concrete input: on the width-3 row
`A A A` with threshold 3 and origin `(1, 0)`, the middle run cell is in
the destroyed set. -/
theorem claim_C1_witness :
    ((1 : ℤ), (0 : ℤ)) ∈ buildDestroyed rowA3.destroyCount (-1) 3 1 1 0 := by
  have h := claim_C1 rowA3 1 0 (-1) 3 1 'A' (wf_mk rowA3 (fun _ => 'A') rfl) (by decide)
    (by decide) (by decide) (by decide) (by decide) (by decide) (by decide) (by decide)
    (by decide)
  exact (h.2.2.2.2.2 (1, 0)).mpr (Or.inl (by decide))

/-- Claim C2: a horizontal run whose length equals `matchThreshold` is
detected and all of its cells are destroyed, wherever the seed origin lies
inside the run (the scans stop exactly at the run's boundaries and the
whole run lands in the destroyed set); and, concretely, Scenario A: on a
width-5, height-1 board with threshold 3, dropping `A` at columns 0, 1, 2
consecutively leaves the three cells `Empty` after the third drop with a
score delta of 30 (three cells destroyed). -/
theorem claim_C2 :
    (∀ (st : GameState) (x y L R d : ℤ) (letter : Char),
      WF st → 0 ≤ x → x < (st.width : ℤ) → 0 ≤ y → y < (st.height : ℤ) →
      letter ≠ '_' → L ≤ x → x ≤ R →
      (∀ i, L ≤ i → i ≤ R → st.cell (i, y) = some letter) →
      (L = 0 ∨ st.cell (L - 1, y) ≠ some letter) →
      (R = (st.width : ℤ) - 1 ∨ st.cell (R + 1, y) ≠ some letter) →
      R - L + 1 = st.destroyCount →
      scanDown st x letter y = .ok d →
      scanLeft st y letter x = .ok (L - 1) ∧ scanRight st y letter x = .ok (R + 1) ∧
      (∀ i, L ≤ i → i ≤ R →
        (i, y) ∈ buildDestroyed st.destroyCount (L - 1) (R + 1) d x y)) ∧
    (scenarioA = .ok scenA7 ∧ scenA7.score = 30 ∧ scenA7.turn = 3 ∧
      scenA7.cell (0, 0) = some '_' ∧ scenA7.cell (1, 0) = some '_' ∧
      scenA7.cell (2, 0) = some '_') := by
  constructor
  · intro st x y L R d letter hwf hx0 hxw hy0 hyh hne hLx hxR hrun hbL hbR hlen hD
    have hL0 : 0 ≤ L := (wf_inRect_of_some hwf (hrun L (le_refl L) (by omega))).1
    have hRw : R < (st.width : ℤ) :=
      (wf_inRect_of_some hwf (hrun R (by omega) (le_refl R))).2.1
    obtain ⟨l0, hLs, hl1, hl2, hl3, hl4⟩ := @scanLeft_spec st y letter x hwf hy0 hyh
      (by omega) hxw
    obtain ⟨r0, hRs, hr1, hr2, hr3, hr4⟩ := @scanRight_spec st y letter x hwf hy0 hyh hx0
      (by omega)
    have hl0eq : l0 = L - 1 := by
      rcases lt_trichotomy l0 (L - 1) with h | h | h
      · exfalso
        rcases hbL with hb | hb
        · omega
        · exact hb (hl3 (L - 1) (by omega) (by omega))
      · exact h
      · exfalso
        exact (hl4 (by omega)) (hrun l0 (by omega) (by omega))
    have hr0eq : r0 = R + 1 := by
      rcases lt_trichotomy r0 (R + 1) with h | h | h
      · exfalso
        exact (hr4 (by omega)) (hrun r0 (by omega) (by omega))
      · exact h
      · exfalso
        rcases hbR with hb | hb
        · omega
        · exact hb (hr3 (R + 1) (by omega) (by omega))
    subst hl0eq
    subst hr0eq
    refine ⟨hLs, hRs, ?_⟩
    intro i hi1 hi2
    rw [mem_buildDestroyed]
    exact Or.inl ⟨by omega, rfl, by omega, by omega⟩
  · exact ⟨scenarioA_eq, by decide, by decide, by decide, by decide, by decide⟩

/-- Claim C2's general part at a concrete input: on the width-3 row
`A A A` with threshold 3 and origin `(0, 0)` (the leftmost cell of the
run), the scans stop at the boundaries and the rightmost run cell is
destroyed. -/
theorem claim_C2_witness :
    scanLeft rowA3 0 'A' 0 = .ok (-1) ∧ scanRight rowA3 0 'A' 0 = .ok 3 ∧
    ((2 : ℤ), (0 : ℤ)) ∈ buildDestroyed rowA3.destroyCount (-1) 3 1 0 0 := by
  have h := claim_C2.1 rowA3 0 0 0 2 1 'A' (wf_mk rowA3 (fun _ => 'A') rfl) (by decide)
    (by decide) (by decide) (by decide) (by decide) (by decide) (by decide)
    (by intro i h1 h2; interval_cases i <;> decide) (Or.inl rfl) (Or.inr (by decide))
    (by decide) (by decide)
  exact ⟨h.1, h.2.1, h.2.2 2 (by decide) (by decide)⟩

/-- Claim C3, as stated, is false on the code: the vertical run detection
scans only downward from the origin, so a same-letter cell directly above
the origin does not belong to the detected vertical run.  Refuted on a
height-4 column `_ A A A` with origin `(0, 2)`: the cell `(0, 1)` holds
the same letter but is not among the scanned vertical cells. -/
theorem claim_C3_cex :
    ¬(∀ (st : GameState) (x y d : ℤ) (letter : Char),
      WF st → 0 ≤ x → x < (st.width : ℤ) → 0 ≤ y → y < (st.height : ℤ) →
      st.cell (x, y) = some letter → letter ≠ '_' →
      st.cell (x, y - 1) = some letter →
      scanDown st x letter y = .ok d → (x, y - 1) ∈ vertCells x y d) := by
  intro h
  have hx := h colA3 0 2 4 'A' (wf_mk colA3 (fun c => if 1 ≤ c.2 then 'A' else '_') rfl)
    (by decide) (by decide) (by decide) (by decide) (by decide) (by decide) (by decide)
    (by decide)
  exact absurd hx (by decide)

/-- Claim C3, amended: the vertical run computed by run detection is the
maximal contiguous downward span of the letter starting at the origin —
the scan runs downward only, every scanned cell holds the letter, the
scan stops at the first mismatch or the bottom edge, and no cell above
the origin is ever part of the detected vertical cells. -/
theorem claim_C3 (st : GameState) (x y : ℤ) (letter : Char) (hwf : WF st)
    (hx0 : 0 ≤ x) (hxw : x < (st.width : ℤ)) (hy0 : 0 ≤ y) (hyh : y < (st.height : ℤ))
    (hor : st.cell (x, y) = some letter) (hne : letter ≠ '_') :
    ∃ d, scanDown st x letter y = .ok d ∧ y < d ∧ d ≤ (st.height : ℤ) ∧
      (∀ j, y ≤ j → j < d → st.cell (x, j) = some letter) ∧
      (d < (st.height : ℤ) → st.cell (x, d) ≠ some letter) ∧
      (∀ c ∈ vertCells x y d, y ≤ c.2) := by
  obtain ⟨d, hD, hd1, hd2, hd3, hd4⟩ := @scanDown_spec st x letter y hwf hx0 hxw hy0
    (by omega)
  have hyd : y < d := by
    rcases lt_or_eq_of_le hd1 with h | h
    · exact h
    · exfalso
      exact (hd4 (by omega)) (by rw [h] at hor; exact hor)
  refine ⟨d, hD, hyd, hd2, hd3, hd4, ?_⟩
  intro c hc
  exact ((mem_vertCells x y d).mp hc).2.1

/-- Claim C3's amended statement at a concrete input: on the column
`_ A A A` with origin `(0, 2)`, the detected downward span is rows 2 and 3. -/
theorem claim_C3_witness :
    ∃ d, scanDown colA3 0 'A' 2 = .ok d ∧ 2 < d ∧ d ≤ (colA3.height : ℤ) ∧
      (∀ j, 2 ≤ j → j < d → colA3.cell (0, j) = some 'A') ∧
      (d < (colA3.height : ℤ) → colA3.cell (0, d) ≠ some 'A') ∧
      (∀ c ∈ vertCells 0 2 d, 2 ≤ c.2) :=
  claim_C3 colA3 0 2 'A' (wf_mk colA3 (fun c => if 1 ≤ c.2 then 'A' else '_') rfl)
    (by decide) (by decide) (by decide) (by decide) (by decide) (by decide)

end LetterCrush

namespace LetterCrush

/-- Claim C4: for every well-formed grid and in-bounds seed cell, the
cascade resolution invoked by a drop terminates: with the recursion depth
bounded by the board's cell count (fuel `width * height + 1`), the mutual
recursion between match checking and gravity reaches a fixed point and
returns normally, for every seed letter. -/
theorem claim_C4 (st : GameState) (x y : ℤ) (letter : Char) (hwf : WF st)
    (hx0 : 0 ≤ x) (hxw : x < (st.width : ℤ)) (hy0 : 0 ≤ y) (hyh : y < (st.height : ℤ)) :
    ∃ st2, cadm (st.width * st.height + 1) st x y letter 1 = .ok st2 := by
  obtain ⟨st2, heq, _⟩ := cadm_ok (st.width * st.height + 1) st x y letter 1 hwf hx0 hxw
    hy0 hyh (by have := nonEmptyCount_le st; omega)
  exact ⟨st2, heq⟩

/-- Claim C4 at a concrete input: the cascade check on the empty 2-by-2
board terminates within the cell-count fuel bound. -/
theorem claim_C4_witness :
    ∃ st2, cadm 5 (initState 2 2 3 'A') 0 0 'B' 1 = .ok st2 :=
  claim_C4 (initState 2 2 3 'A') 0 0 'B' (wf_mk _ (fun _ => '_') rfl) (by decide)
    (by decide) (by decide) (by decide)

/-- Claim C5, as stated, is false on the code: collapsing a destroyed set
does not give full compaction in every affected column when the column
already had a floating gap before the destruction.  On the column `A _ B C`
(top to bottom), destroying the bottom cell `(0, 3)` leaves `A _ _ B`: the
empty cell at row 2 still has the non-empty `A` above it. -/
theorem claim_C5_cex :
    ¬(∀ (st : GameState) (l : List Cell) (st2 : GameState) (cands : List Cell),
      WF st → (∀ c ∈ l, inRect st.width st.height c) → List.Pairwise rowLe l →
      collapseDestroyed st l = .ok (st2, cands) →
      ∀ c ∈ l, colCompact st2 c.1) := by
  intro h
  have hwf : WF colGap := wf_mk colGap
    (fun c => if c.2 = 0 then 'A' else if c.2 = 2 then 'B' else if c.2 = 3 then 'C' else '_')
    rfl
  have hcc := h colGap [(0, 3)] colGapRes.1 colGapRes.2 hwf
    (by intro c hc; rw [List.mem_singleton] at hc; subst hc; exact (by decide))
    (by simp) (by decide) (0, 3) (List.mem_singleton.mpr rfl)
  have hbad := hcc 2 0 (by decide) (by decide) (by decide) (by decide)
  exact absurd hbad (by decide)

/-- Claim C5, amended: if every affected column is fully compacted before
the destruction (the game's boards are; a pre-existing floating gap is the
only way to break it), then after `collapseAbove` is applied to every
destroyed cell, every affected column is again fully compacted: no empty
cell has a non-empty cell anywhere above it.  The row hypothesis mirrors
the claim's sorted processing order; compaction is restored for any
processing order. -/
theorem claim_C5 (st : GameState) (l : List Cell) (hwf : WF st)
    (hin : ∀ c ∈ l, inRect st.width st.height c) (hsort : List.Pairwise rowLe l)
    (hcomp : ∀ c ∈ l, colCompact st c.1) :
    ∃ st2 cands, collapseDestroyed st l = .ok (st2, cands) ∧
      ∀ c ∈ l, colCompact st2 c.1 := by
  obtain ⟨st2, cands, heq, _, _, _, _⟩ := collapseDestroyed_ok l st hwf hin
  refine ⟨st2, cands, heq, ?_⟩
  intro c hc
  exact collapseDestroyed_compact l st st2 cands hwf hin heq c.1 (hcomp c hc)

/-- Claim C5's amended statement at a concrete input: collapsing the one
destroyed cell of the empty 1-by-1 board keeps its (trivially compacted)
column compacted. -/
theorem claim_C5_witness :
    ∃ st2 cands, collapseDestroyed (initState 1 1 3 'A') [(0, 0)] = .ok (st2, cands) ∧
      ∀ c ∈ ([(0, 0)] : List Cell), colCompact st2 c.1 := by
  apply claim_C5 (initState 1 1 3 'A') [(0, 0)] (wf_mk _ (fun _ => '_') rfl)
  · intro c hc
    rw [List.mem_singleton] at hc
    subst hc
    exact (by decide)
  · simp
  · intro c hc j j2 h1 h2 h3 hemp
    have hone : ((initState 1 1 3 'A').height : ℤ) = 1 := by decide
    have hj : j2 = j := by omega
    rw [hj]
    exact hemp

/-- Claim C6, as stated, is false on the code: `drop_supported` does not
return exactly the cells whose stored symbol changed.  On the column `A A`,
collapsing the bottom cell returns only `[(0, 1)]` — a cell whose symbol
did not change (it received the same letter from above) — while the top
cell `(0, 0)`, which did change (it became empty), is not returned. -/
theorem claim_C6_cex :
    ¬(∀ (st : GameState) (x y : ℤ) (st2 : GameState) (cands : List Cell),
      WF st → inRect st.width st.height (x, y) →
      dropSupported st (x, y) = .ok (st2, cands) →
      ∀ c : Cell, c ∈ cands ↔ st2.cell c ≠ st.cell c) := by
  intro h
  have hwf : WF colAA := wf_mk colAA (fun _ => 'A') rfl
  have hiff := h colAA 0 1 colAARes.1 colAARes.2 hwf (by decide) (by decide) (0, 0)
  have hchanged : colAARes.1.cell (0, 0) ≠ colAA.cell (0, 0) := by decide
  exact absurd (hiff.mpr hchanged) (by decide)

/-- Claim C6, amended: `drop_supported` on a cell `(x, y)` returns exactly
the cells into which the symbol of the cell above was copied — the
contiguous segment of column `x` from the origin row `y` up to (and
excluding) the stop row `t`, listed with the cell closest to the origin
first — whether or not the copied symbol differs from the old one; the
vacated top cell `(x, t)`, which is set to `Empty`, is not listed. -/
theorem claim_C6 (st : GameState) (x y : ℤ) (hwf : WF st)
    (hin : inRect st.width st.height (x, y)) :
    ∃ t st2 cands, dropSupported st (x, y) = .ok (st2, cands) ∧
      0 ≤ t ∧ t ≤ y ∧ cands = descCells x y t ∧
      (∀ c : Cell, c ∈ cands ↔ c.1 = x ∧ t < c.2 ∧ c.2 ≤ y) ∧
      (∀ j, t < j → j ≤ y → st2.cell (x, j) = st.cell (x, j - 1)) ∧
      st2.cell (x, t) = some '_' ∧ (x, t) ∉ cands ∧
      (∀ c : Cell, c.1 ≠ x ∨ c.2 < t ∨ y < c.2 → st2.cell c = st.cell c) := by
  obtain ⟨t, st2, cands, heq, ht0, hty, hcands, _, _, hempty, hnew, hunt, _, _, _⟩ :=
    dropSupported_spec hwf hin
  refine ⟨t, st2, cands, heq, ht0, hty, hcands, ?_, hnew, hempty, ?_, hunt⟩
  · intro c
    rw [hcands, mem_descCells]
  · rw [hcands, mem_descCells]
    simp

/-- Claim C6's amended statement at a concrete input: collapsing the
bottom cell of the column `A A`. -/
theorem claim_C6_witness :
    ∃ t st2 cands, dropSupported colAA (0, 1) = .ok (st2, cands) ∧
      0 ≤ t ∧ t ≤ 1 ∧ cands = descCells 0 1 t ∧
      (∀ c : Cell, c ∈ cands ↔ c.1 = 0 ∧ t < c.2 ∧ c.2 ≤ 1) ∧
      (∀ j, t < j → j ≤ 1 → st2.cell (0, j) = colAA.cell (0, j - 1)) ∧
      st2.cell (0, t) = some '_' ∧ ((0 : ℤ), t) ∉ cands ∧
      (∀ c : Cell, c.1 ≠ 0 ∨ c.2 < t ∨ 1 < c.2 → st2.cell c = colAA.cell c) :=
  claim_C6 colAA 0 1 (wf_mk colAA (fun _ => 'A') rfl) (by decide)

/-- Claim C7: dropping into a full column performs no mutation at all —
the state (grid, score, turn counter, current letter and cursor) is
returned exactly as it was, and no error is raised; the decline is
silent. -/
theorem claim_C7 (st : GameState) (fuel : ℕ) (nl : Char) (hwf : WF st)
    (h0 : 0 ≤ st.cursor) (hw : st.cursor < (st.width : ℤ))
    (hfull : ∀ j : ℤ, 0 ≤ j → j < (st.height : ℤ) → st.cell (st.cursor, j) ≠ some '_') :
    dropLetter fuel nl st = .ok st := by
  unfold dropLetter
  rw [findLanding_full hwf h0 hw hfull]
  simp

/-- Claim C7 at a concrete input: dropping into the full column `B B`
returns the state unchanged. -/
theorem claim_C7_witness : dropLetter 3 'C' colBB = .ok colBB := by
  apply claim_C7 colBB 3 'C' (wf_mk colBB (fun _ => 'B') rfl) (by decide) (by decide)
  intro j h1 h2
  have hj : j = 0 ∨ j = 1 := by
    have : (colBB.height : ℤ) = 2 := by decide
    omega
  rcases hj with hj | hj <;> subst hj <;> decide

/-- Claim C8: the session score never decreases across a drop — every
successful `drop()` changes the score by a non-negative amount, whatever
the board, fuel and next letter, so the score is a monotone accumulator
over any sequence of drops. -/
theorem claim_C8 (fuel : ℕ) (nl : Char) (st st2 : GameState)
    (heq : dropLetter fuel nl st = .ok st2) : st.score ≤ st2.score :=
  dropLetter_score heq

/-- Claim C8 at a concrete input: a drop on the empty 1-by-1 board. -/
theorem claim_C8_witness : (initState 1 1 3 'A').score ≤ dropRes1.score :=
  claim_C8 2 'B' (initState 1 1 3 'A') dropRes1 (by decide)

/-- Claim C9: `cursor_left` and `cursor_right` only clamp the cursor into
`[0, width - 1]`: at column 0 `cursor_left` leaves it at 0, at
`width - 1` `cursor_right` leaves it there, neither call errors (the
asserts hold for an in-range cursor), and the grid, score, turn counter,
current letter and dimensions are unchanged. -/
theorem claim_C9 (st : GameState) (h0 : 0 ≤ st.cursor)
    (h1 : st.cursor ≤ (st.width : ℤ) - 1) :
    (∃ stL, cursorLeft st = .ok stL ∧
      stL.cursor = (if st.cursor = 0 then 0 else st.cursor - 1) ∧
      0 ≤ stL.cursor ∧ stL.cursor ≤ (st.width : ℤ) - 1 ∧ stL.board = st.board ∧
      stL.score = st.score ∧ stL.turn = st.turn ∧
      stL.currentLetter = st.currentLetter ∧ stL.width = st.width ∧
      stL.height = st.height) ∧
    (∃ stR, cursorRight st = .ok stR ∧
      stR.cursor = (if st.cursor = (st.width : ℤ) - 1 then (st.width : ℤ) - 1
        else st.cursor + 1) ∧
      0 ≤ stR.cursor ∧ stR.cursor ≤ (st.width : ℤ) - 1 ∧ stR.board = st.board ∧
      stR.score = st.score ∧ stR.turn = st.turn ∧
      stR.currentLetter = st.currentLetter ∧ stR.width = st.width ∧
      stR.height = st.height) := by
  constructor
  · by_cases hz : st.cursor = 0
    · refine ⟨st, ?_, ?_, h0, h1, rfl, rfl, rfl, rfl, rfl, rfl⟩
      · unfold cursorLeft
        rw [if_pos ⟨h0, h1⟩, if_pos hz]
      · rw [if_pos hz, hz]
    · refine ⟨{ st with cursor := st.cursor - 1 }, ?_, ?_, by simp; omega, by simp; omega,
        rfl, rfl, rfl, rfl, rfl, rfl⟩
      · unfold cursorLeft
        rw [if_pos ⟨h0, h1⟩, if_neg hz]
      · rw [if_neg hz]
  · by_cases hz : st.cursor = (st.width : ℤ) - 1
    · refine ⟨st, ?_, ?_, h0, h1, rfl, rfl, rfl, rfl, rfl, rfl⟩
      · unfold cursorRight
        rw [if_pos ⟨h0, h1⟩, if_pos hz]
      · rw [if_pos hz, hz]
    · refine ⟨{ st with cursor := st.cursor + 1 }, ?_, ?_, by simp; omega, by simp; omega,
        rfl, rfl, rfl, rfl, rfl, rfl⟩
      · unfold cursorRight
        rw [if_pos ⟨h0, h1⟩, if_neg hz]
      · rw [if_neg hz]

/-- Claim C9 at a concrete input: the cursor of a fresh width-3 board sits
at column 1 and both moves stay in range with all other fields unchanged. -/
theorem claim_C9_witness :
    (∃ stL, cursorLeft (initState 3 1 3 'A') = .ok stL ∧
      stL.cursor = (if (initState 3 1 3 'A').cursor = 0 then 0
        else (initState 3 1 3 'A').cursor - 1) ∧
      0 ≤ stL.cursor ∧ stL.cursor ≤ ((initState 3 1 3 'A').width : ℤ) - 1 ∧
      stL.board = (initState 3 1 3 'A').board ∧
      stL.score = (initState 3 1 3 'A').score ∧
      stL.turn = (initState 3 1 3 'A').turn ∧
      stL.currentLetter = (initState 3 1 3 'A').currentLetter ∧
      stL.width = (initState 3 1 3 'A').width ∧
      stL.height = (initState 3 1 3 'A').height) ∧
    (∃ stR, cursorRight (initState 3 1 3 'A') = .ok stR ∧
      stR.cursor = (if (initState 3 1 3 'A').cursor = ((initState 3 1 3 'A').width : ℤ) - 1
        then ((initState 3 1 3 'A').width : ℤ) - 1 else (initState 3 1 3 'A').cursor + 1) ∧
      0 ≤ stR.cursor ∧ stR.cursor ≤ ((initState 3 1 3 'A').width : ℤ) - 1 ∧
      stR.board = (initState 3 1 3 'A').board ∧
      stR.score = (initState 3 1 3 'A').score ∧
      stR.turn = (initState 3 1 3 'A').turn ∧
      stR.currentLetter = (initState 3 1 3 'A').currentLetter ∧
      stR.width = (initState 3 1 3 'A').width ∧
      stR.height = (initState 3 1 3 'A').height) :=
  claim_C9 (initState 3 1 3 'A') (by decide) (by decide)

/-- Claim C10: with the cursor in `[0, width - 1]` and a board whose key
set is exactly the rectangle, no board access performed during a drop and
its cascade resolution can miss a key: whatever the fuel bound, the drop
never fails with a `KeyError`. -/
theorem claim_C10 (st : GameState) (fuel : ℕ) (nl : Char) (hwf : WF st)
    (h0 : 0 ≤ st.cursor) (hw : st.cursor < (st.width : ℤ)) :
    dropLetter fuel nl st ≠ .error .keyError :=
  dropLetter_safe hwf h0 hw fuel nl

/-- Claim C10 at a concrete input: a drop on the fresh 2-by-2 board. -/
theorem claim_C10_witness : dropLetter 1 'C' (initState 2 2 3 'A') ≠ .error .keyError :=
  claim_C10 (initState 2 2 3 'A') 1 'C' (wf_mk _ (fun _ => '_') rfl) (by decide) (by decide)

end LetterCrush
